import Mathlib

/-!
# A model of `threadpool.cpp`

The class `threadpool` is embedded as a labelled transition system.

* The data members (`m_pool`, `m_task`, `m_lock`, `m_run`, `m_idl_thread_num`) are
  fields of the structure `threadpool`.  Every element of `m_pool` is the program
  counter of one worker thread inside the lambda of `addThread` (lines 114-139).
* All shared accesses of the source are either sequentially consistent atomics
  (`m_run`, `m_idl_thread_num`) or happen under `m_lock` (`m_task`), so an execution
  is an interleaving of the atomic steps below.  `step` performs one such step,
  `run` a whole schedule.
* `commit` reads `m_run` at line 79 without the lock and enqueues at line 97 under the
  lock, so the two happen in two steps (`commitTest`, `commitRest`) between which any
  other step can fall, line 45 included; `commit` is the call without a step in between.
* When the destructor returns, the members are destroyed: the `packaged_task`s still in
  `m_task` are abandoned and their futures become ready with `broken_promise`.  The
  fields of a destroyed pool keep the values the members had when they were destroyed.
* Fields that the program does not have are carried along: the heap of future shared
  states (`futures`, `nextFut`), the calls of `commit` that are between line 79 and
  line 91 (`entered`), the program counter of the thread that owns the pool (`owner`),
  and the `log` of observable events.
-/

namespace TP

/-- The constant `#define THREADPOOL_MAX_NUM 16` (line 17). -/
def THREADPOOL_MAX_NUM : Nat := 16

/-- Values returned by the callables of the source: `void`, `int`, `string`. -/
inductive Value where
  | unit
  | int (n : Int)
  | str (s : String)
  deriving DecidableEq, Repr

/-- What a ready shared state holds, i.e. what `future::get` yields: the value returned by
the callable, the exception thrown by the callable, or the `future_error` with code
`broken_promise` stored when the `packaged_task` is destroyed before it was invoked.  A
callable produces one of the first two (or throws that `future_error` itself). -/
inductive Outcome where
  | value (v : Value)
  | raised (what : String)
  | broken_promise
  deriving DecidableEq, Repr

/-- The element type of `m_task` (line 25).  The closure `[task]() { (*task)(); }` of
lines 93-95 owns one `packaged_task`: `fut` names its shared state (the one the returned
`future` reads) and `call` is the bound callable `bind(f, args...)` of line 87. -/
structure Task where
  fut : Nat
  call : Unit → Outcome

/-- The `std::bind(forward<F>(f), forward<Args>(args)...)` of line 87: a callable taking
no argument that applies `f` to the stored arguments. -/
def bind {α : Type} (f : α → Outcome) (args : α) : Unit → Outcome :=
  fun _ => f args

/-- Program counter of a worker thread, i.e. a position in the lambda of lines 114-139. -/
inductive Pc where
  /-- About to evaluate the loop condition `while (m_run)` (line 116). -/
  | loopHead
  /-- About to lock `m_lock`: at line 118, or inside `wait` after having been woken. -/
  | acquire
  /-- Holding the lock, about to evaluate the predicate of `wait` (line 121). -/
  | waitPred
  /-- Holding the lock, the predicate was false, about to release the lock and sleep. -/
  | waitEnter
  /-- Asleep on `m_task_cv`, the lock released. -/
  | blocked
  /-- Holding the lock, `wait` has returned, about to run lines 125-133. -/
  | check
  /-- Owns the task taken from the queue, about to run `m_idl_thread_num--` (line 135). -/
  | decr (t : Task)
  /-- About to run `task()` (line 136). -/
  | exec (t : Task)
  /-- About to run `m_idl_thread_num++` (line 137). -/
  | incr
  /-- The thread function has returned. -/
  | terminated

/-- The three states of the worker loop named by the specification. -/
inductive Phase where
  | WaitingForWork
  | Executing
  | Terminated
  deriving DecidableEq, Repr

/-- The state of the specification in which a program counter lies: `Executing` is
lines 135-137, `Terminated` the returned thread, everything else waits for work. -/
def Pc.phase : Pc → Phase
  | .decr _ => .Executing
  | .exec _ => .Executing
  | .incr => .Executing
  | .terminated => .Terminated
  | _ => .WaitingForWork

/-- Whether the worker sleeps on the condition variable. -/
def Pc.isBlocked : Pc → Bool
  | .blocked => true
  | _ => false

/-- Whether the worker is between `m_idl_thread_num--` and `m_idl_thread_num++`. -/
def Pc.busy : Pc → Bool
  | .exec _ => true
  | .incr => true
  | _ => false

/-- Whether the worker is inside the loop body before the dequeue of lines 129-130: these
are the positions from which line 129 can still be reached without passing line 116. -/
def Pc.beforeDequeue : Pc → Bool
  | .acquire => true
  | .waitPred => true
  | .waitEnter => true
  | .blocked => true
  | .check => true
  | _ => false

/-- Whether the worker holds `m_lock`. -/
def Pc.locked : Pc → Bool
  | .waitPred => true
  | .waitEnter => true
  | .check => true
  | _ => false

/-- Program counter of the thread that owns the pool: it uses the constructed pool
(`live`), or it is inside `~threadpool` after line 45 (`stopped`), in the join loop of
lines 47-51 at thread number `k` (`joining k`), or the destructor has returned and the
members are destroyed (`destroyed`). -/
inductive Owner where
  | live
  | stopped
  | joining (k : Nat)
  | destroyed

/-- Observable events, in the order in which they happen. -/
inductive Event where
  /-- Line 97 put this task at the tail of the queue. -/
  | submitted (t : Task)
  /-- Worker `i` took this task from the queue (lines 129-130). -/
  | dequeued (i : Nat) (t : Task)
  /-- Worker `i` returned from `task()` (line 136). -/
  | executed (i : Nat) (t : Task)
  /-- Line 45 stored `false` into `m_run`. -/
  | stop

/-- The class `threadpool` (lines 23-146) together with the history fields. -/
structure threadpool where
  /-- The vector `m_pool`: one program counter per created thread. -/
  m_pool : List Pc
  /-- The queue `m_task`, head first. -/
  m_task : List Task
  /-- The mutex `m_lock`: the worker holding it, if any. -/
  m_lock : Option Nat
  /-- The atomic `m_run`. -/
  m_run : Bool
  /-- The atomic `m_idl_thread_num`. -/
  m_idl_thread_num : Int
  /-- Shared states of the futures handed out so far: `none` while not ready. -/
  futures : Nat → Option Outcome
  /-- The next unused shared state (what `make_shared` of line 87 allocates). -/
  nextFut : Nat
  /-- The bound callables of the calls of `commit` that have passed the test of line 79
  and have not yet locked the mutex at line 91. -/
  entered : List (Unit → Outcome)
  /-- Where the owning thread is. -/
  owner : Owner
  /-- The events so far. -/
  log : List Event

/-- The object before the constructor body runs: the default member initialisers of
lines 26-31. -/
def threadpool.init : threadpool where
  m_pool := []
  m_task := []
  m_lock := none
  m_run := true
  m_idl_thread_num := 0
  futures := fun _ => none
  nextFut := 0
  entered := []
  owner := .live
  log := []

/-- The method `addThread` (lines 110-145): while fewer than `THREADPOOL_MAX_NUM` threads
exist and `size > 0`, create a thread at the start of the worker lambda, increment
`m_idl_thread_num`, and decrement `size`. -/
def threadpool.addThread : Nat → threadpool → threadpool
  | 0, p => p
  | size + 1, p =>
    if p.m_pool.length < THREADPOOL_MAX_NUM then
      threadpool.addThread size
        { p with m_pool := p.m_pool ++ [Pc.loopHead],
                 m_idl_thread_num := p.m_idl_thread_num + 1 }
    else p

/-- The constructor `threadpool(unsigned short size)` (lines 37-39).  While it runs no
other thread can reach the object, so the queue stays empty and `m_run` true, and a
worker that already started can only walk from line 116 into `wait`; those steps are
available to it after construction as well, hence construction is taken as one step
that leaves every worker at line 116. -/
def threadpool.construct (size : Nat) : threadpool :=
  threadpool.addThread size threadpool.init

/-- The method `threadCount` (lines 64-66). -/
def threadpool.threadCount (p : threadpool) : Int :=
  (p.m_pool.length : Int)

/-- The method `idlThreadCount` (lines 57-59). -/
def threadpool.idlThreadCount (p : threadpool) : Int :=
  p.m_idl_thread_num

/-- Move worker `i` to program counter `pc`. -/
def threadpool.setPc (p : threadpool) (i : Nat) (pc : Pc) : threadpool :=
  { p with m_pool := p.m_pool.set i pc }

/-- The workers asleep on `m_task_cv`, by index. -/
def waiters (pool : List Pc) : List Nat :=
  (List.range pool.length).filter
    (fun i => match pool[i]? with
      | some pc => pc.isBlocked
      | none => false)

/-- The call `m_task_cv.notify_one()`: if some worker sleeps on the condition variable, one
of them is woken and goes on to re-lock the mutex.  Which one is up to the scheduler: it
is the sleeper number `pick` (modulo their number). -/
def threadpool.notify_one (p : threadpool) (pick : Nat) : threadpool :=
  match (waiters p.m_pool)[pick % (waiters p.m_pool).length]? with
  | some j => p.setPc j Pc.acquire
  | none => p

/-- What `notify_all` does to one worker. -/
def Pc.wake : Pc → Pc
  | .blocked => .acquire
  | pc => pc

/-- The call `m_task_cv.notify_all()`: every sleeper is woken. -/
def threadpool.notify_all (p : threadpool) : threadpool :=
  { p with m_pool := p.m_pool.map Pc.wake }

/-- The exception of line 80. -/
inductive PoolError where
  | runtime_error (what : String)
  deriving DecidableEq, Repr

/-- The method `commit` (lines 76-103), from call to return.  If `m_run` is false it
throws.  Otherwise it allocates the `packaged_task` with its future, appends the closure
to `m_task` under the lock, calls `notify_one`, and returns the future.  The lock is
taken at line 91 and released on return; `step` below lets the call happen only when no
worker holds the lock. -/
def threadpool.commit {α : Type} (p : threadpool) (f : α → Outcome) (args : α)
    (pick : Nat) : Except PoolError (Nat × threadpool) :=
  if p.m_run = false then
    .error (.runtime_error "thread pool is stoped.")
  else
    let task : Task := { fut := p.nextFut, call := bind f args }
    let p1 : threadpool :=
      { p with nextFut := p.nextFut + 1,
               m_task := p.m_task ++ [task],
               log := p.log ++ [Event.submitted task] }
    .ok (task.fut, p1.notify_one pick)

/-- One atomic step of worker `i` (lines 116-138).  `none` means that the worker cannot
move: it waits for the mutex, sleeps, or has returned; or the step has no defined
behaviour in C++ (`front()` of an empty queue, a `packaged_task` invoked twice). -/
def threadpool.workerStep (s : threadpool) (i : Nat) : Option threadpool :=
  match s.m_pool[i]? with
  | none => none
  | some Pc.loopHead =>
    if s.m_run then some (s.setPc i Pc.acquire) else some (s.setPc i Pc.terminated)
  | some Pc.acquire =>
    match s.m_lock with
    | none => some { s.setPc i Pc.waitPred with m_lock := some i }
    | some _ => none
  | some Pc.waitPred =>
    if !s.m_run || !s.m_task.isEmpty then some (s.setPc i Pc.check)
    else some (s.setPc i Pc.waitEnter)
  | some Pc.waitEnter => some { s.setPc i Pc.blocked with m_lock := none }
  | some Pc.blocked => none
  | some Pc.check =>
    if !s.m_run && s.m_task.isEmpty then
      some { s.setPc i Pc.terminated with m_lock := none }
    else
      match s.m_task with
      | [] => none
      | t :: rest =>
        some { s.setPc i (Pc.decr t) with
                 m_task := rest, m_lock := none,
                 log := s.log ++ [Event.dequeued i t] }
  | some (Pc.decr t) =>
    some { s.setPc i (Pc.exec t) with m_idl_thread_num := s.m_idl_thread_num - 1 }
  | some (Pc.exec t) =>
    match s.futures t.fut with
    | some _ => none
    | none =>
      some { s.setPc i Pc.incr with
               futures := fun k => if k = t.fut then some (t.call ()) else s.futures k,
               log := s.log ++ [Event.executed i t] }
  | some Pc.incr =>
    some { s.setPc i Pc.loopHead with m_idl_thread_num := s.m_idl_thread_num + 1 }
  | some Pc.terminated => none

/-- The state after lines 87-97 of `commit`: the task is at the tail of the queue. -/
def threadpool.enqueue (s : threadpool) (job : Unit → Outcome) : threadpool :=
  { s with nextFut := s.nextFut + 1,
           m_task := s.m_task ++ [{ fut := s.nextFut, call := job }],
           log := s.log ++ [Event.submitted { fut := s.nextFut, call := job }] }

/-- What the destruction of the queue does to the shared states: every `packaged_task`
still in the queue is destroyed, and a shared state that is not ready becomes ready
with `broken_promise`. -/
def abandon (q : List Task) (fs : Nat → Option Outcome) : Nat → Option Outcome :=
  fun k =>
    match fs k with
    | some o => some o
    | none => if q.any (fun t => t.fut == k) then some Outcome.broken_promise else none

/-- What the scheduler can do next. -/
inductive Action where
  /-- A caller runs `commit` with the bound callable `job` from line 79 to its return,
  with no step of another thread in between. -/
  | commit (job : Unit → Outcome) (pick : Nat)
  /-- A caller runs the test of line 79 of `commit` with the bound callable `job`. -/
  | commitTest (job : Unit → Outcome)
  /-- The caller number `k` of those that passed line 79 runs lines 84-102. -/
  | commitRest (k : Nat) (pick : Nat)
  /-- Worker `i` performs its next step. -/
  | worker (i : Nat)
  /-- The sleeping worker `i` wakes up without a notification. -/
  | spurious (i : Nat)
  /-- Line 45 of the destructor. -/
  | stop
  /-- Line 46 of the destructor. -/
  | notifyAll
  /-- One iteration of the loop of lines 47-51, or its exit, the return of the destructor
  and the destruction of the members. -/
  | join

/-- One step of the whole system; `none` if the action is not enabled: a thread waits, or
the step has no defined behaviour (locking the mutex of a destroyed pool). -/
def threadpool.step (s : threadpool) : Action → Option threadpool
  | .commit job pick =>
    if s.m_run = true ∧ s.m_lock.isSome = true then none
    else
      match s.commit job () pick with
      | .ok r => some r.2
      | .error _ => some s
  | .commitTest job =>
    if s.m_run then some { s with entered := s.entered ++ [job] } else some s
  | .commitRest k pick =>
    match s.owner with
    | .destroyed => none
    | _ =>
      match s.m_lock with
      | some _ => none
      | none =>
        match s.entered[k]? with
        | none => none
        | some job =>
          some (({ s with entered := s.entered.eraseIdx k }.enqueue job).notify_one pick)
  | .worker i => s.workerStep i
  | .spurious i =>
    match s.m_pool[i]? with
    | some Pc.blocked => some (s.setPc i Pc.acquire)
    | _ => none
  | .stop =>
    match s.owner with
    | .live => some { s with m_run := false, owner := .stopped, log := s.log ++ [Event.stop] }
    | _ => none
  | .notifyAll =>
    match s.owner with
    | .stopped => some { s.notify_all with owner := .joining 0 }
    | _ => none
  | .join =>
    match s.owner with
    | .joining k =>
      match s.m_pool[k]? with
      | none =>
        some { s with owner := .destroyed, futures := abandon s.m_task s.futures }
      | some Pc.terminated => some { s with owner := .joining (k + 1) }
      | some _ => none
    | _ => none

/-- Run a schedule; `none` if one of its actions is not enabled when its turn comes. -/
def threadpool.run (s : threadpool) : List Action → Option threadpool
  | [] => some s
  | a :: rest =>
    match s.step a with
    | some s1 => threadpool.run s1 rest
    | none => none

/-- The function `func5` (lines 184-187): `return a * a`.  The product is taken over the
integers; the C++ `int` product agrees with it wherever it is defined (no overflow). -/
def func5 (a : Int) : Int := a * a

/-- The callable handed to `commit` by `commit(func5, 9)`: it returns a value. -/
def func5Callable (a : Int) : Outcome := .value (.int (func5 a))

/-! ## Reading the log -/

/-- The tasks accepted by `commit`, in the order of their enqueue. -/
def submittedOf (log : List Event) : List Task :=
  log.filterMap fun e => match e with
    | .submitted t => some t
    | _ => none

/-- The tasks taken from the queue, in the order of their dequeue. -/
def dequeuedOf (log : List Event) : List Task :=
  log.filterMap fun e => match e with
    | .dequeued _ t => some t
    | _ => none

/-- The tasks taken from the queue by worker `i`. -/
def dequeuedBy (i : Nat) (log : List Event) : List Task :=
  log.filterMap fun e => match e with
    | .dequeued j t => if j = i then some t else none
    | _ => none

/-- The tasks whose invocation has returned. -/
def executedOf (log : List Event) : List Task :=
  log.filterMap fun e => match e with
    | .executed _ t => some t
    | _ => none

/-- Whether the event is the store of line 45. -/
def Event.isStop : Event → Bool
  | .stop => true
  | _ => false

/-- The events that happened after shutdown began (after the first `stop`). -/
def afterStop : List Event → List Event
  | [] => []
  | e :: rest => if e.isStop then rest else afterStop rest

/-- The task a worker owns between lines 129 and 136. -/
def Pc.held : Pc → Option Task
  | .decr t => some t
  | .exec t => some t
  | _ => none

/-- Whether the owner has not yet entered the destructor. -/
def Owner.isLive : Owner → Bool
  | .live => true
  | _ => false

/-- Whether the destructor has returned. -/
def Owner.isDestroyed : Owner → Bool
  | .destroyed => true
  | _ => false

/-! ## The transitions, one by one

`Trans s s1` lists the atomic state changes that `step` is made of; `step_trans` below
shows that every step is a short chain of them (an enqueue, for instance, followed by
the wake-up of `notify_one`). -/

/-- The atomic state changes of the system. -/
inductive Trans (s : threadpool) : threadpool → Prop where
  | refuse : Trans s s
  | callers (l : List (Unit → Outcome)) : Trans s { s with entered := l }
  | enqueue (job : Unit → Outcome) : (s.m_run = true ∨ s.owner.isDestroyed = false) →
      Trans s (s.enqueue job)
  | wake (j : Nat) : s.m_pool[j]? = some Pc.blocked → Trans s (s.setPc j Pc.acquire)
  | stop : s.owner = Owner.live →
      Trans s { s with m_run := false, owner := .stopped, log := s.log ++ [Event.stop] }
  | notifyAll : s.owner = Owner.stopped → Trans s { s.notify_all with owner := .joining 0 }
  | joinOne (k : Nat) : s.owner = Owner.joining k → s.m_pool[k]? = some Pc.terminated →
      Trans s { s with owner := .joining (k + 1) }
  | joinEnd (k : Nat) : s.owner = Owner.joining k → s.m_pool[k]? = none →
      Trans s { s with owner := .destroyed, futures := abandon s.m_task s.futures }
  | enter (i : Nat) : s.m_pool[i]? = some Pc.loopHead → s.m_run = true →
      Trans s (s.setPc i Pc.acquire)
  | leave (i : Nat) : s.m_pool[i]? = some Pc.loopHead → s.m_run = false →
      Trans s (s.setPc i Pc.terminated)
  | lock (i : Nat) : s.m_pool[i]? = some Pc.acquire → s.m_lock = none →
      Trans s { s.setPc i Pc.waitPred with m_lock := some i }
  | predTrue (i : Nat) : s.m_pool[i]? = some Pc.waitPred →
      (s.m_run = false ∨ s.m_task ≠ []) → Trans s (s.setPc i Pc.check)
  | predFalse (i : Nat) : s.m_pool[i]? = some Pc.waitPred → s.m_run = true →
      s.m_task = [] → Trans s (s.setPc i Pc.waitEnter)
  | sleep (i : Nat) : s.m_pool[i]? = some Pc.waitEnter →
      Trans s { s.setPc i Pc.blocked with m_lock := none }
  | exit (i : Nat) : s.m_pool[i]? = some Pc.check → s.m_run = false → s.m_task = [] →
      Trans s { s.setPc i Pc.terminated with m_lock := none }
  | dequeue (i : Nat) (t : Task) (rest : List Task) : s.m_pool[i]? = some Pc.check →
      s.m_task = t :: rest →
      Trans s { s.setPc i (Pc.decr t) with
                  m_task := rest, m_lock := none, log := s.log ++ [Event.dequeued i t] }
  | decr (i : Nat) (t : Task) : s.m_pool[i]? = some (Pc.decr t) →
      Trans s { s.setPc i (Pc.exec t) with m_idl_thread_num := s.m_idl_thread_num - 1 }
  | exec (i : Nat) (t : Task) : s.m_pool[i]? = some (Pc.exec t) → s.futures t.fut = none →
      Trans s { s.setPc i Pc.incr with
                  futures := fun k => if k = t.fut then some (t.call ()) else s.futures k,
                  log := s.log ++ [Event.executed i t] }
  | incr (i : Nat) : s.m_pool[i]? = some Pc.incr →
      Trans s { s.setPc i Pc.loopHead with m_idl_thread_num := s.m_idl_thread_num + 1 }

/-! ## Invariants -/

/-- The idle counter counts the workers that are not between the decrement of line 135
and the increment of line 137. -/
def InvIdle (s : threadpool) : Prop :=
  s.m_idl_thread_num + (s.m_pool.countP Pc.busy : Int) = (s.m_pool.length : Int)

/-- Control invariant: `m_run` is true exactly until the destructor starts, the mutex is
held exactly by the worker between `lock` and `unlock`, a worker past `wait` finds the
loop exit or a task, and the destructor has joined only returned threads. -/
structure InvCore (s : threadpool) : Prop where
  run_live : s.m_run = s.owner.isLive
  stop_log : s.log.any Event.isStop = !s.m_run
  lock_of : ∀ (i : Nat) (pc : Pc), s.m_pool[i]? = some pc → pc.locked = true → s.m_lock = some i
  of_lock : ∀ i : Nat, s.m_lock = some i → ∃ pc, s.m_pool[i]? = some pc ∧ pc.locked = true
  check_ok : ∀ i : Nat, s.m_pool[i]? = some Pc.check → s.m_run = false ∨ s.m_task ≠ []
  joined : ∀ k : Nat, s.owner = Owner.joining k →
    ∀ (j : Nat) (pc : Pc), j < k → s.m_pool[j]? = some pc → pc = Pc.terminated
  destroyed : s.owner = Owner.destroyed → ∀ (j : Nat) (pc : Pc), s.m_pool[j]? = some pc → pc = Pc.terminated

/-- One if the worker in this slot can still reach the dequeue of line 129 without
passing the loop condition of line 116, zero otherwise (also for an empty slot). -/
def slot (o : Option Pc) : Nat :=
  match o with
  | some pc => if pc.beforeDequeue then 1 else 0
  | none => 0

/-- Shutdown invariant: once `m_run` is false, the dequeues made since line 45 and the
workers that can still make one without passing line 116 are together no more than the
workers; and this holds for each worker separately. -/
structure InvStop (s : threadpool) : Prop where
  total : s.m_run = false →
    (dequeuedOf (afterStop s.log)).length + s.m_pool.countP Pc.beforeDequeue
      ≤ s.m_pool.length
  each : s.m_run = false →
    ∀ i : Nat, (dequeuedBy i (afterStop s.log)).length + slot s.m_pool[i]? ≤ 1

/-- The task owned by worker `i`, if there is such a worker and it owns one. -/
def heldAt (pool : List Pc) (i : Nat) : Option Task :=
  pool[i]?.bind Pc.held

/-- Queue invariant: the accepted tasks are the dequeued tasks followed by the queue, and
the `k`-th accepted task carries the `k`-th shared state. -/
structure InvFifo (s : threadpool) : Prop where
  order : submittedOf s.log = dequeuedOf s.log ++ s.m_task
  ids : (submittedOf s.log).map Task.fut = List.range s.nextFut

/-- Future invariant: a dequeued task is owned by exactly one worker until its invocation
returns; the shared state of a task is not ready while the task is queued or owned,
holds the outcome of its callable once the invocation has returned, and holds
`broken_promise` if the task was still queued when the queue was destroyed. -/
structure InvFut (s : threadpool) : Prop where
  held_dequeued : ∀ (i : Nat) (t : Task),
    heldAt s.m_pool i = some t → t ∈ dequeuedOf s.log
  dequeued_cases : ∀ t : Task, t ∈ dequeuedOf s.log →
    t ∈ executedOf s.log ∨ ∃ i : Nat, heldAt s.m_pool i = some t
  held_unique : ∀ (i j : Nat) (t u : Task),
    heldAt s.m_pool i = some t → heldAt s.m_pool j = some u → t.fut = u.fut → i = j
  queue_pending : s.owner.isDestroyed = false →
    ∀ t : Task, t ∈ s.m_task → s.futures t.fut = none
  queue_broken : s.owner.isDestroyed = true →
    ∀ t : Task, t ∈ s.m_task → s.futures t.fut = some Outcome.broken_promise
  held_pending : ∀ (i : Nat) (t : Task),
    heldAt s.m_pool i = some t → s.futures t.fut = none
  fresh : ∀ k : Nat, s.nextFut ≤ k → s.futures k = none
  executed_ready : ∀ t : Task, t ∈ executedOf s.log → s.futures t.fut = some (t.call ())
  executed_dequeued : ∀ t : Task, t ∈ executedOf s.log → t ∈ dequeuedOf s.log

/-- All invariants together. -/
structure Inv (s : threadpool) : Prop where
  core : InvCore s
  idle : InvIdle s
  stop : InvStop s
  fifo : InvFifo s
  fut : InvFut s

/-- The future `h` has been handed out for a callable whose outcome is `o`, and every
accepted task that carries it has that outcome. -/
def Carries (h : Nat) (o : Outcome) (s : threadpool) : Prop :=
  h < s.nextFut ∧ ∀ t : Task, t ∈ submittedOf s.log → t.fut = h → t.call () = o

/-! ## Sample schedules -/

/-- The bound callable of `commit(func5, 9)` (line 244). -/
def squareNine : Unit → Outcome := bind func5Callable 9

/-- A callable that throws when invoked. -/
def failing (_ : Unit) : Outcome := .raised "task failed"

/-- Worker `i` takes `n` steps in a row. -/
def steps (i : Nat) (n : Nat) : List Action := List.replicate n (Action.worker i)

/-- The pool of `main` after `commit(func5, 9)` and seven steps of worker 0: one full
round of the loop (lines 116-137). -/
def squareSchedule : List Action := Action.commit squareNine 0 :: steps 0 7

/-- A pool of three workers whose destructor has executed line 45. -/
def stoppedPool : threadpool :=
  { threadpool.construct 3 with m_run := false, owner := .stopped, log := [Event.stop] }

/-- Three commits on a pool of one worker; the worker takes the first task (four steps up
to the dequeue); the destructor runs lines 45-46; the worker finishes its task and
meets the loop condition of line 116; the destructor joins it and returns. -/
def drainSchedule : List Action :=
  [Action.commit squareNine 0, Action.commit squareNine 0, Action.commit squareNine 0]
    ++ steps 0 4 ++ [Action.stop, Action.notifyAll] ++ steps 0 4
    ++ [Action.join, Action.join]

/-- Two commits on a pool of one worker; the worker takes the first task; line 45 runs;
the worker finishes its task and is back at line 116. -/
def abandonSchedule : List Action :=
  [Action.commit squareNine 0, Action.commit squareNine 0]
    ++ steps 0 4 ++ [Action.stop] ++ steps 0 3

/-- Two commits on a pool of two workers; worker 0 walks into `wait` and past it (three
steps); line 45 runs; worker 0 still dequeues the first task and runs it, then leaves;
worker 1 leaves at once. -/
def lateDequeueSchedule : List Action :=
  [Action.commit squareNine 0, Action.commit squareNine 0]
    ++ steps 0 3 ++ [Action.stop] ++ steps 0 5 ++ steps 1 1

/-- One commit on a pool of one worker, which then locks the mutex: it is about to evaluate
the predicate of `wait` with a task in the queue. -/
def wakeSchedule : List Action := Action.commit squareNine 0 :: steps 0 2

/-- One commit of the throwing callable on a pool of one worker, which then walks to
line 136: it is about to invoke the task. -/
def failSchedule : List Action := Action.commit failing 0 :: steps 0 5

/-- A caller passes the test of line 79 on a pool of one worker, line 45 runs, and only
then the caller locks the mutex and enqueues. -/
def lateCommitSchedule : List Action :=
  [Action.commitTest squareNine, Action.stop, Action.commitRest 0 0]

/-! ## Basic facts about the operations -/

section Basics

variable (p : threadpool)

@[simp] theorem setPc_m_task (i : Nat) (pc : Pc) : (p.setPc i pc).m_task = p.m_task := rfl
@[simp] theorem setPc_m_lock (i : Nat) (pc : Pc) : (p.setPc i pc).m_lock = p.m_lock := rfl
@[simp] theorem setPc_m_run (i : Nat) (pc : Pc) : (p.setPc i pc).m_run = p.m_run := rfl
@[simp] theorem setPc_idl (i : Nat) (pc : Pc) :
    (p.setPc i pc).m_idl_thread_num = p.m_idl_thread_num := rfl
@[simp] theorem setPc_futures (i : Nat) (pc : Pc) : (p.setPc i pc).futures = p.futures := rfl
@[simp] theorem setPc_nextFut (i : Nat) (pc : Pc) : (p.setPc i pc).nextFut = p.nextFut := rfl
@[simp] theorem setPc_owner (i : Nat) (pc : Pc) : (p.setPc i pc).owner = p.owner := rfl
@[simp] theorem setPc_log (i : Nat) (pc : Pc) : (p.setPc i pc).log = p.log := rfl
@[simp] theorem setPc_m_pool (i : Nat) (pc : Pc) :
    (p.setPc i pc).m_pool = p.m_pool.set i pc := rfl

/-- What `notify_one` does: nothing, or it moves one sleeper to `acquire`. -/
theorem notify_one_cases (pick : Nat) :
    p.notify_one pick = p ∨
      ∃ j, p.m_pool[j]? = some Pc.blocked ∧ p.notify_one pick = p.setPc j Pc.acquire := by
  unfold threadpool.notify_one
  cases h : (waiters p.m_pool)[pick % (waiters p.m_pool).length]? with
  | none => exact Or.inl rfl
  | some j =>
    right
    refine ⟨j, ?_, rfl⟩
    have hm : j ∈ waiters p.m_pool := List.getElem?_mem h
    unfold waiters at hm
    rw [List.mem_filter] at hm
    obtain ⟨_, hb⟩ := hm
    cases hj : p.m_pool[j]? with
    | none => rw [hj] at hb; cases hb
    | some pc =>
      rw [hj] at hb
      cases pc <;> first | rfl | cases hb

@[simp] theorem notify_one_m_task (pick : Nat) : (p.notify_one pick).m_task = p.m_task := by
  rcases notify_one_cases p pick with h | ⟨j, _, h⟩ <;> rw [h]; rfl
@[simp] theorem notify_one_m_lock (pick : Nat) : (p.notify_one pick).m_lock = p.m_lock := by
  rcases notify_one_cases p pick with h | ⟨j, _, h⟩ <;> rw [h]; rfl
@[simp] theorem notify_one_m_run (pick : Nat) : (p.notify_one pick).m_run = p.m_run := by
  rcases notify_one_cases p pick with h | ⟨j, _, h⟩ <;> rw [h]; rfl
@[simp] theorem notify_one_idl (pick : Nat) :
    (p.notify_one pick).m_idl_thread_num = p.m_idl_thread_num := by
  rcases notify_one_cases p pick with h | ⟨j, _, h⟩ <;> rw [h]; rfl
@[simp] theorem notify_one_futures (pick : Nat) : (p.notify_one pick).futures = p.futures := by
  rcases notify_one_cases p pick with h | ⟨j, _, h⟩ <;> rw [h]; rfl
@[simp] theorem notify_one_nextFut (pick : Nat) : (p.notify_one pick).nextFut = p.nextFut := by
  rcases notify_one_cases p pick with h | ⟨j, _, h⟩ <;> rw [h]; rfl
@[simp] theorem notify_one_owner (pick : Nat) : (p.notify_one pick).owner = p.owner := by
  rcases notify_one_cases p pick with h | ⟨j, _, h⟩ <;> rw [h]; rfl
@[simp] theorem notify_one_log (pick : Nat) : (p.notify_one pick).log = p.log := by
  rcases notify_one_cases p pick with h | ⟨j, _, h⟩ <;> rw [h]; rfl
@[simp] theorem notify_one_length (pick : Nat) :
    (p.notify_one pick).m_pool.length = p.m_pool.length := by
  rcases notify_one_cases p pick with h | ⟨j, _, h⟩ <;> rw [h]; simp

end Basics

/-- The loop of `addThread` stops at the cap or when `size` is used up. -/
theorem addThread_length (size : Nat) (p : threadpool) :
    (threadpool.addThread size p).m_pool.length =
      if p.m_pool.length < THREADPOOL_MAX_NUM then
        min (p.m_pool.length + size) THREADPOOL_MAX_NUM
      else p.m_pool.length := by
  induction size generalizing p with
  | zero =>
    simp only [threadpool.addThread]
    split <;> omega
  | succ n ih =>
    simp only [threadpool.addThread]
    by_cases h : p.m_pool.length < THREADPOOL_MAX_NUM
    · rw [if_pos h, ih]
      simp only [List.length_append, List.length_singleton, if_pos h]
      split <;> omega
    · rw [if_neg h, if_neg h]

/-! ## Every step is a transition -/

theorem commit_ok_eq (s : threadpool) (job : Unit → Outcome) (pick : Nat)
    (h : s.m_run = true) :
    s.commit job () pick = .ok (s.nextFut, (s.enqueue job).notify_one pick) := by
  unfold threadpool.commit
  rw [if_neg (by simp [h])]
  rfl

theorem workerStep_trans {s s1 : threadpool} {i : Nat} (h : s.workerStep i = some s1) :
    Trans s s1 := by
  unfold threadpool.workerStep at h
  split at h
  · cases h
  · rename_i hp
    split at h <;> cases h
    · exact Trans.enter i hp (by assumption)
    · exact Trans.leave i hp ((Bool.not_eq_true _).mp ‹_›)
  · rename_i hp
    split at h
    · cases h; exact Trans.lock i hp (by assumption)
    · cases h
  · rename_i hp
    split at h <;> cases h
    · rename_i hc
      refine Trans.predTrue i hp ?_
      simp at hc
      rcases hc with hc | hc
      · exact Or.inl hc
      · exact Or.inr hc
    · rename_i hc
      simp at hc
      exact Trans.predFalse i hp hc.1 hc.2
  · rename_i hp
    cases h; exact Trans.sleep i hp
  · cases h
  · rename_i hp
    split at h
    · rename_i hc
      cases h
      simp at hc
      exact Trans.exit i hp hc.1 hc.2
    · split at h
      · cases h
      · rename_i hq
        cases h
        exact Trans.dequeue i _ _ hp hq
  · rename_i hp
    cases h; exact Trans.decr i _ hp
  · rename_i hp
    split at h
    · cases h
    · rename_i hf
      cases h; exact Trans.exec i _ hp hf
  · rename_i hp
    cases h; exact Trans.incr i hp
  · cases h

/-- Every step is a chain of transitions. -/
theorem step_trans {s s1 : threadpool} {a : Action} (h : s.step a = some s1) :
    Relation.ReflTransGen Trans s s1 := by
  cases a with
  | commit job pick =>
    simp only [threadpool.step] at h
    split at h
    · cases h
    · by_cases hr : s.m_run = true
      · rw [commit_ok_eq s job pick hr] at h
        simp only [Option.some.injEq] at h
        subst h
        have t1 : Trans s (s.enqueue job) := Trans.enqueue job (Or.inl hr)
        rcases notify_one_cases (s.enqueue job) pick with e | ⟨j, hj, e⟩
        · rw [e]; exact .single t1
        · rw [e]; exact .tail (.single t1) (Trans.wake j hj)
      · have hr2 : s.m_run = false := by simpa using hr
        simp only [threadpool.commit, hr2, if_true] at h
        cases h
        exact .refl
  | commitTest job =>
    simp only [threadpool.step] at h
    split at h <;> cases h
    · exact .single (Trans.callers _)
    · exact .refl
  | commitRest k pick =>
    simp only [threadpool.step] at h
    split at h
    · cases h
    · rename_i hd
      split at h
      · cases h
      · split at h
        · cases h
        · rename_i job _
          cases h
          have hnd : s.owner.isDestroyed = false := by
            cases ho : s.owner <;> first | rfl | exact absurd ho (hd ·)
          have t1 : Trans s { s with entered := s.entered.eraseIdx k } := Trans.callers _
          have t2 : Trans { s with entered := s.entered.eraseIdx k }
              ({ s with entered := s.entered.eraseIdx k }.enqueue job) :=
            Trans.enqueue job (Or.inr hnd)
          rcases notify_one_cases ({ s with entered := s.entered.eraseIdx k }.enqueue job)
            pick with e | ⟨j, hj, e⟩
          · rw [e]; exact .tail (.single t1) t2
          · rw [e]; exact .tail (.tail (.single t1) t2) (Trans.wake j hj)
  | worker i => exact .single (workerStep_trans h)
  | spurious i =>
    simp only [threadpool.step] at h
    split at h
    · rename_i hp
      cases h; exact .single (Trans.wake i hp)
    · cases h
  | stop =>
    simp only [threadpool.step] at h
    split at h
    · rename_i ho
      cases h; exact .single (Trans.stop ho)
    · cases h
  | notifyAll =>
    simp only [threadpool.step] at h
    split at h
    · rename_i ho
      cases h; exact .single (Trans.notifyAll ho)
    · cases h
  | join =>
    simp only [threadpool.step] at h
    split at h
    · rename_i k ho
      split at h
      · rename_i hp
        cases h; exact .single (Trans.joinEnd k ho hp)
      · rename_i hp
        cases h; exact .single (Trans.joinOne k ho hp)
      · cases h
    · cases h

/-- A property kept by every transition is kept by every chain of transitions. -/
theorem chain_invariant (P : threadpool → Prop)
    (hP : ∀ s s1, P s → Trans s s1 → P s1) {s s1 : threadpool}
    (c : Relation.ReflTransGen Trans s s1) (hs : P s) : P s1 := by
  induction c with
  | refl => exact hs
  | tail _ t ih => exact hP _ _ ih t

/-- A property kept by every transition holds after every schedule. -/
theorem run_invariant (P : threadpool → Prop)
    (hP : ∀ s s1, P s → Trans s s1 → P s1) :
    ∀ (acts : List Action) (s s1 : threadpool), P s → s.run acts = some s1 → P s1 := by
  intro acts
  induction acts with
  | nil =>
    intro s s1 hs h
    simp only [threadpool.run, Option.some.injEq] at h
    exact h ▸ hs
  | cons a rest ih =>
    intro s s1 hs h
    simp only [threadpool.run] at h
    split at h
    · rename_i m hm
      exact ih m s1 (chain_invariant P hP (step_trans hm) hs) h
    · cases h

/-! ## Lists of program counters -/

theorem countP_set_getElem? (q : Pc → Bool) (l : List Pc) (i : Nat) (a b : Pc)
    (h : l[i]? = some a) :
    (l.set i b).countP q + (if q a then 1 else 0) = l.countP q + (if q b then 1 else 0) := by
  induction l generalizing i with
  | nil => simp at h
  | cons x l ih =>
    cases i with
    | zero =>
      simp only [List.getElem?_cons_zero, Option.some.injEq] at h
      subst h
      simp only [List.set_cons_zero, List.countP_cons]
      omega
    | succ i =>
      simp only [List.getElem?_cons_succ] at h
      have := ih i h
      simp only [List.set_cons_succ, List.countP_cons]
      omega

theorem countP_set_int (q : Pc → Bool) (l : List Pc) (i : Nat) (a b : Pc)
    (h : l[i]? = some a) :
    ((l.set i b).countP q : Int) =
      (l.countP q : Int) - (if q a then 1 else 0) + (if q b then 1 else 0) := by
  have := countP_set_getElem? q l i a b h
  split <;> split <;> (simp_all; try omega)

theorem countP_wake (q : Pc → Bool) (hq : q Pc.acquire = q Pc.blocked) (l : List Pc) :
    (l.map Pc.wake).countP q = l.countP q := by
  rw [List.countP_map]
  congr 1
  funext pc
  cases pc <;> simp [Pc.wake, hq]

/-! ## The idle counter -/

theorem InvIdle_addThread (size : Nat) (p : threadpool) (h : InvIdle p) :
    InvIdle (threadpool.addThread size p) := by
  induction size generalizing p with
  | zero => exact h
  | succ n ih =>
    simp only [threadpool.addThread]
    split
    · apply ih
      unfold InvIdle at *
      simp only [List.countP_append, List.length_append, List.length_singleton,
        List.countP_cons, List.countP_nil, Pc.busy]
      push_cast
      simp
      omega
    · exact h

theorem InvIdle_construct (size : Nat) : InvIdle (threadpool.construct size) := by
  apply InvIdle_addThread
  simp [InvIdle, threadpool.init]

theorem InvIdle_trans (s s1 : threadpool) (h : InvIdle s) (t : Trans s s1) : InvIdle s1 := by
  unfold InvIdle at *
  cases t with
  | refuse => exact h
  | callers l => exact h
  | enqueue job _ => exact h
  | stop _ => exact h
  | joinOne k _ _ => exact h
  | joinEnd k _ _ => exact h
  | notifyAll _ =>
    simp only [threadpool.notify_all, List.length_map]
    rw [countP_wake Pc.busy rfl]
    exact h
  | wake j hp | enter j hp _ | leave j hp _ | lock j hp _ | predTrue j hp _
  | predFalse j hp _ _ | sleep j hp | exit j hp _ _ | dequeue j _ _ hp _
  | decr j _ hp | exec j _ hp _ | incr j hp =>
    simp only [threadpool.setPc, List.length_set]
    rw [countP_set_int Pc.busy _ _ _ _ hp]
    simp only [Pc.busy]
    simp
    omega

/-! ## The control invariant -/

theorem getElem?_set_of {l : List Pc} {i : Nat} {a : Pc} (h : l[i]? = some a) (b : Pc)
    (j : Nat) : (l.set i b)[j]? = if j = i then some b else l[j]? := by
  have hi : i < l.length := (List.getElem?_eq_some.mp h).1
  rw [List.getElem?_set]
  by_cases e : i = j
  · subst e; simp [hi]
  · have e2 : ¬ j = i := fun x => e x.symm
    simp [e, e2]

theorem addThread_pcs (size : Nat) (p : threadpool)
    (h : ∀ (j : Nat) (pc : Pc), p.m_pool[j]? = some pc → pc = Pc.loopHead) :
    ∀ (j : Nat) (pc : Pc), (threadpool.addThread size p).m_pool[j]? = some pc → pc = Pc.loopHead := by
  induction size generalizing p with
  | zero => exact h
  | succ n ih =>
    simp only [threadpool.addThread]
    split
    · apply ih
      intro j pc hj
      simp only [List.getElem?_append] at hj
      split at hj
      · exact h j pc hj
      · cases hk : j - p.m_pool.length with
        | zero => simp [hk] at hj; exact hj.symm
        | succ k => simp [hk] at hj
    · exact h

theorem addThread_frame (size : Nat) (p : threadpool) :
    (threadpool.addThread size p).m_task = p.m_task ∧
    (threadpool.addThread size p).m_lock = p.m_lock ∧
    (threadpool.addThread size p).m_run = p.m_run ∧
    (threadpool.addThread size p).futures = p.futures ∧
    (threadpool.addThread size p).nextFut = p.nextFut ∧
    (threadpool.addThread size p).owner = p.owner ∧
    (threadpool.addThread size p).log = p.log := by
  induction size generalizing p with
  | zero => simp [threadpool.addThread]
  | succ n ih =>
    simp only [threadpool.addThread]
    split
    · exact ih _
    · simp

theorem construct_pcs (size : Nat) :
    ∀ (j : Nat) (pc : Pc), (threadpool.construct size).m_pool[j]? = some pc → pc = Pc.loopHead := by
  apply addThread_pcs
  intro j pc h
  simp [threadpool.init] at h

theorem construct_frame (size : Nat) :
    (threadpool.construct size).m_task = [] ∧
    (threadpool.construct size).m_lock = none ∧
    (threadpool.construct size).m_run = true ∧
    (threadpool.construct size).futures = (fun _ => none) ∧
    (threadpool.construct size).nextFut = 0 ∧
    (threadpool.construct size).owner = Owner.live ∧
    (threadpool.construct size).log = [] :=
  addThread_frame size threadpool.init

theorem InvCore_construct (size : Nat) : InvCore (threadpool.construct size) := by
  obtain ⟨h1, h2, h3, h4, h5, h6, h7⟩ := construct_frame size
  have hp := construct_pcs size
  constructor
  · rw [h3, h6]; rfl
  · rw [h7, h3]; rfl
  · intro i pc hi hl
    rw [hp i pc hi] at hl
    cases hl
  · intro i hi
    rw [h2] at hi
    cases hi
  · intro i hi
    cases hp i _ hi
  · intro k hk
    rw [h6] at hk
    cases hk
  · intro hk
    rw [h6] at hk
    cases hk

theorem getElem?_wake {l : List Pc} {i : Nat} {pc : Pc} (h : (l.map Pc.wake)[i]? = some pc) :
    ∃ pc0, l[i]? = some pc0 ∧ pc0.wake = pc := by
  rw [List.getElem?_map] at h
  cases hl : l[i]? with
  | none => rw [hl] at h; cases h
  | some pc0 =>
    rw [hl] at h
    exact ⟨pc0, rfl, by simpa using h⟩

theorem wake_locked {pc0 pc : Pc} (h : pc0.wake = pc) (hl : pc.locked = true) : pc0 = pc := by
  cases pc0 <;> simp only [Pc.wake] at h <;> subst h <;> first | rfl | cases hl

theorem lock_of_trans (s s1 : threadpool) (h : InvCore s) (t : Trans s s1) :
    ∀ (i : Nat) (pc : Pc), s1.m_pool[i]? = some pc → pc.locked = true → s1.m_lock = some i := by
  cases t with
  | refuse => exact h.lock_of
  | callers l => exact h.lock_of
  | enqueue job _ => exact h.lock_of
  | stop _ => exact h.lock_of
  | joinOne k _ _ => exact h.lock_of
  | joinEnd k _ _ => exact h.lock_of
  | notifyAll _ =>
    intro k pc hk hl
    obtain ⟨pc0, h0, hw⟩ := getElem?_wake hk
    have := wake_locked hw hl
    subst this
    exact h.lock_of k pc0 h0 hl
  | wake j hp | enter j hp _ | leave j hp _ | predFalse j hp _ _ | predTrue j hp _
  | decr j _ hp | exec j _ hp _ | incr j hp =>
    intro k pc hk hl
    simp only [threadpool.setPc, getElem?_set_of hp] at hk
    split at hk
    · cases hk
      first
        | (rename_i e; subst e; exact h.lock_of _ _ hp rfl)
        | cases hl
    · exact h.lock_of k pc hk hl
  | lock j hp hn =>
    intro k pc hk hl
    simp only [threadpool.setPc, getElem?_set_of hp] at hk
    split at hk
    · rename_i e; subst e; rfl
    · have := h.lock_of k pc hk hl
      rw [hn] at this
      cases this
  | sleep j hp | exit j hp _ _ | dequeue j _ _ hp _ =>
    intro k pc hk hl
    simp only [threadpool.setPc, getElem?_set_of hp] at hk
    split at hk
    · cases hk
      cases hl
    · rename_i e
      have h1 := h.lock_of k pc hk hl
      have h2 := h.lock_of j _ hp rfl
      rw [h1] at h2
      cases h2
      exact absurd rfl e

theorem of_lock_trans (s s1 : threadpool) (h : InvCore s) (t : Trans s s1) :
    ∀ i : Nat, s1.m_lock = some i → ∃ pc, s1.m_pool[i]? = some pc ∧ pc.locked = true := by
  cases t with
  | refuse => exact h.of_lock
  | callers l => exact h.of_lock
  | enqueue job _ => exact h.of_lock
  | stop _ => exact h.of_lock
  | joinOne k _ _ => exact h.of_lock
  | joinEnd k _ _ => exact h.of_lock
  | notifyAll _ =>
    intro k hk
    obtain ⟨pc0, h0, hl⟩ := h.of_lock k hk
    refine ⟨pc0, ?_, hl⟩
    simp only [threadpool.notify_all, List.getElem?_map, h0, Option.map_some']
    cases pc0 <;> first | rfl | cases hl
  | wake j hp | enter j hp _ | leave j hp _ | predFalse j hp _ _ | predTrue j hp _
  | decr j _ hp | exec j _ hp _ | incr j hp =>
    intro k hk
    obtain ⟨pc0, h0, hl⟩ := h.of_lock k hk
    simp only [threadpool.setPc, getElem?_set_of hp]
    by_cases e : k = j
    · subst e
      rw [hp] at h0
      cases h0
      first
        | exact ⟨_, if_pos rfl, rfl⟩
        | cases hl
    · exact ⟨pc0, by rw [if_neg e]; exact h0, hl⟩
  | lock j hp hn =>
    intro k hk
    cases hk
    exact ⟨Pc.waitPred, by simp only [threadpool.setPc, getElem?_set_of hp, if_pos], rfl⟩
  | sleep j hp | exit j hp _ _ | dequeue j _ _ hp _ =>
    intro k hk
    cases hk

theorem check_ok_trans (s s1 : threadpool) (h : InvCore s) (t : Trans s s1) :
    ∀ i : Nat, s1.m_pool[i]? = some Pc.check → s1.m_run = false ∨ s1.m_task ≠ [] := by
  cases t with
  | refuse => exact h.check_ok
  | callers l => exact h.check_ok
  | enqueue job _ =>
    intro k _
    right
    simp [threadpool.enqueue]
  | stop _ => intro k _; exact Or.inl rfl
  | joinOne k _ _ => exact h.check_ok
  | joinEnd k _ _ => exact h.check_ok
  | notifyAll _ =>
    intro k hk
    obtain ⟨pc0, h0, hw⟩ := getElem?_wake hk
    have := wake_locked hw rfl
    subst this
    exact h.check_ok k h0
  | predTrue j hp hc =>
    intro k hk
    simp only [threadpool.setPc, getElem?_set_of hp] at hk
    split at hk
    · exact hc
    · exact h.check_ok k hk
  | wake j hp | enter j hp _ | leave j hp _ | predFalse j hp _ _
  | decr j _ hp | exec j _ hp _ | incr j hp | lock j hp _ | sleep j hp | exit j hp _ _ =>
    intro k hk
    simp only [threadpool.setPc, getElem?_set_of hp] at hk
    split at hk
    · cases hk
    · exact h.check_ok k hk
  | dequeue j _ _ hp _ =>
    intro k hk
    simp only [threadpool.setPc, getElem?_set_of hp] at hk
    split at hk
    · cases hk
    · rename_i e
      have h1 := h.lock_of k _ hk rfl
      have h2 := h.lock_of j _ hp rfl
      rw [h1] at h2
      cases h2
      exact absurd rfl e

theorem joined_trans (s s1 : threadpool) (h : InvCore s) (t : Trans s s1) :
    ∀ k : Nat, s1.owner = Owner.joining k →
      ∀ (j : Nat) (pc : Pc), j < k → s1.m_pool[j]? = some pc → pc = Pc.terminated := by
  cases t with
  | refuse => exact h.joined
  | callers l => exact h.joined
  | enqueue job _ => exact h.joined
  | stop _ => intro k hk; cases hk
  | joinEnd k _ _ => intro k hk; cases hk
  | joinOne k ho hp =>
    intro k1 hk j pc hj hpc
    cases hk
    by_cases e : j = k
    · subst e
      rw [hp] at hpc
      cases hpc
      rfl
    · exact h.joined k ho j pc (by omega) hpc
  | notifyAll _ =>
    intro k hk j pc hj
    cases hk
    omega
  | wake j hp | enter j hp _ | leave j hp _ | predFalse j hp _ _ | predTrue j hp _
  | decr j _ hp | exec j _ hp _ | incr j hp | lock j hp _ | sleep j hp | exit j hp _ _
  | dequeue j _ _ hp _ =>
    intro k hk i pc hi hpc
    simp only [threadpool.setPc, getElem?_set_of hp] at hpc
    split at hpc
    · rename_i e
      subst e
      have := h.joined k hk i _ hi hp
      cases this
    · exact h.joined k hk i pc hi hpc

theorem destroyed_trans (s s1 : threadpool) (h : InvCore s) (t : Trans s s1) :
    s1.owner = Owner.destroyed →
      ∀ (j : Nat) (pc : Pc), s1.m_pool[j]? = some pc → pc = Pc.terminated := by
  cases t with
  | refuse => exact h.destroyed
  | callers l => exact h.destroyed
  | enqueue job _ => exact h.destroyed
  | stop _ => intro hk; cases hk
  | joinOne k _ _ => intro hk; cases hk
  | notifyAll _ => intro hk; cases hk
  | joinEnd k ho hp =>
    intro _ j pc hpc
    have hlen : s.m_pool.length ≤ k := List.getElem?_eq_none_iff.mp hp
    have hj : j < s.m_pool.length := (List.getElem?_eq_some.mp hpc).1
    exact h.joined k ho j pc (by omega) hpc
  | wake j hp | enter j hp _ | leave j hp _ | predFalse j hp _ _ | predTrue j hp _
  | decr j _ hp | exec j _ hp _ | incr j hp | lock j hp _ | sleep j hp | exit j hp _ _
  | dequeue j _ _ hp _ =>
    intro hk i pc hpc
    simp only [threadpool.setPc, getElem?_set_of hp] at hpc
    split at hpc
    · rename_i e
      subst e
      have := h.destroyed hk i _ hp
      cases this
    · exact h.destroyed hk i pc hpc

theorem InvCore_trans (s s1 : threadpool) (h : InvCore s) (t : Trans s s1) : InvCore s1 := by
  refine ⟨?_, ?_, lock_of_trans s s1 h t, of_lock_trans s s1 h t, check_ok_trans s s1 h t,
    joined_trans s s1 h t, destroyed_trans s s1 h t⟩
  · have h1 := h.run_live
    cases t <;> first | exact h1 | rfl | skip
    all_goals simp_all [Owner.isLive, threadpool.notify_all]
  · have h2 := h.stop_log
    cases t <;> first | exact h2 | skip
    all_goals simp_all [threadpool.enqueue, Event.isStop]

/-- The control invariant holds in every reachable state. -/
theorem InvCore_reachable {size : Nat} {acts : List Action} {s : threadpool}
    (h : (threadpool.construct size).run acts = some s) : InvCore s :=
  run_invariant InvCore InvCore_trans acts _ _ (InvCore_construct size) h

/-- The idle-counter invariant holds in every reachable state. -/
theorem InvIdle_reachable {size : Nat} {acts : List Action} {s : threadpool}
    (h : (threadpool.construct size).run acts = some s) : InvIdle s :=
  run_invariant InvIdle InvIdle_trans acts _ _ (InvIdle_construct size) h

/-! ## Dequeues after shutdown began -/

theorem afterStop_snoc (l : List Event) (e : Event) :
    afterStop (l ++ [e]) = if l.any Event.isStop then afterStop l ++ [e] else [] := by
  induction l with
  | nil =>
    simp only [List.nil_append, afterStop, List.any_nil]
    split <;> rfl
  | cons x l ih =>
    simp only [List.cons_append, afterStop, List.any_cons]
    cases hx : x.isStop
    · simpa using ih
    · simp

theorem dequeuedBy_snoc_dequeued (i j : Nat) (t : Task) (l : List Event) :
    dequeuedBy i (l ++ [Event.dequeued j t]) = dequeuedBy i l ++ (if j = i then [t] else []) := by
  unfold dequeuedBy
  rw [List.filterMap_append]
  congr 1
  by_cases e : j = i <;> simp [e]

theorem afterStop_of_no_stop (l : List Event) (h : l.any Event.isStop = false) :
    afterStop l = [] := by
  induction l with
  | nil => rfl
  | cons x l ih =>
    simp only [List.any_cons, Bool.or_eq_false_iff] at h
    simp only [afterStop, h.1, Bool.false_eq_true, if_false]
    exact ih h.2

theorem InvStop_construct (size : Nat) : InvStop (threadpool.construct size) := by
  obtain ⟨_, _, h3, _⟩ := construct_frame size
  constructor <;> intro h <;> rw [h3] at h <;> cases h

theorem slot_wake (l : List Pc) (i : Nat) : slot (l.map Pc.wake)[i]? = slot l[i]? := by
  rw [List.getElem?_map]
  cases l[i]? with
  | none => rfl
  | some pc => cases pc <;> rfl

theorem countP_set_le (q : Pc → Bool) (l : List Pc) (i : Nat) (a b : Pc)
    (h : l[i]? = some a) (hq : q b = true → q a = true) :
    (l.set i b).countP q ≤ l.countP q := by
  have := countP_set_getElem? q l i a b h
  by_cases hb : q b = true
  · rw [if_pos (hq hb), if_pos hb] at this
    omega
  · rw [if_neg hb] at this
    omega

theorem slot_le {a b : Pc} (hq : b.beforeDequeue = true → a.beforeDequeue = true) :
    slot (some b) ≤ slot (some a) := by
  unfold slot
  by_cases hb : b.beforeDequeue = true
  · simp [hb, hq hb]
  · simp [hb]

theorem InvStop_trans (s s1 : threadpool) (c : InvCore s) (h : InvStop s) (t : Trans s s1) :
    InvStop s1 := by
  have hlog : s.m_run = false → s.log.any Event.isStop = true := by
    intro hr; rw [c.stop_log, hr]; rfl
  cases t with
  | refuse => exact h
  | callers l => exact ⟨h.total, h.each⟩
  | enqueue job _ =>
    constructor
    · intro hr
      have h1 := h.total hr
      simp only [threadpool.enqueue, afterStop_snoc, hlog hr, if_true]
      simpa [dequeuedOf] using h1
    · intro hr i
      have h1 := h.each hr i
      simp only [threadpool.enqueue, afterStop_snoc, hlog hr, if_true]
      simpa [dequeuedBy] using h1
  | joinOne k _ _ => exact ⟨h.total, h.each⟩
  | joinEnd k _ _ => exact ⟨h.total, h.each⟩
  | stop ho =>
    have hr : s.m_run = true := by rw [c.run_live, ho]; rfl
    have hn : s.log.any Event.isStop = false := by rw [c.stop_log, hr]; rfl
    constructor
    · intro _
      simp only [afterStop_snoc, hn]
      simpa [dequeuedOf] using List.countP_le_length Pc.beforeDequeue
    · intro _ i
      simp only [afterStop_snoc, hn]
      simp only [dequeuedBy, Bool.false_eq_true, if_false, List.filterMap_nil,
        List.length_nil, Nat.zero_add]
      unfold slot
      split
      · split <;> omega
      · omega
  | notifyAll _ =>
    constructor
    · intro hr
      have := h.total hr
      simp only [threadpool.notify_all, List.length_map]
      rw [countP_wake Pc.beforeDequeue rfl]
      exact this
    · intro hr i
      have := h.each hr i
      simp only [threadpool.notify_all]
      rw [slot_wake]
      exact this
  | enter j hp hr =>
    constructor <;> intro hf <;> simp only [setPc_m_run] at hf <;> rw [hr] at hf <;> cases hf
  | wake j hp | leave j hp _ | lock j hp _ | predTrue j hp _
  | predFalse j hp _ _ | sleep j hp | exit j hp _ _ | decr j _ hp | incr j hp =>
    constructor
    · intro hr
      have h1 := h.total hr
      simp only [threadpool.setPc, List.length_set]
      refine Nat.le_trans (Nat.add_le_add_left
        (countP_set_le Pc.beforeDequeue _ _ _ _ hp ?_) _) h1
      intro hb
      first | rfl | cases hb
    · intro hr i
      have h1 := h.each hr i
      simp only [threadpool.setPc, getElem?_set_of hp]
      split
      · rename_i e
        subst e
        rw [hp] at h1
        refine Nat.le_trans (Nat.add_le_add_left (slot_le ?_) _) h1
        intro hb
        first | rfl | cases hb
      · exact h1
  | exec j t hp _ =>
    constructor
    · intro hr
      have h1 := h.total hr
      have h2 := countP_set_getElem? Pc.beforeDequeue s.m_pool j _ Pc.incr hp
      simp only [threadpool.setPc, List.length_set, afterStop_snoc, hlog hr, if_true]
      simp only [Pc.beforeDequeue] at h2
      simp [dequeuedOf] at h2 h1 ⊢
      omega
    · intro hr i
      have h1 := h.each hr i
      simp only [threadpool.setPc, getElem?_set_of hp, afterStop_snoc, hlog hr, if_true]
      split
      · rename_i e
        subst e
        rw [hp] at h1
        simp only [slot, Pc.beforeDequeue] at h1 ⊢
        simp [dequeuedBy] at h1 ⊢
        omega
      · simpa [dequeuedBy] using h1
  | dequeue j t rest hp _ =>
    constructor
    · intro hr
      have h1 := h.total hr
      have h2 := countP_set_getElem? Pc.beforeDequeue s.m_pool j _ (Pc.decr t) hp
      simp only [threadpool.setPc, List.length_set, afterStop_snoc, hlog hr, if_true]
      simp only [Pc.beforeDequeue] at h2
      simp [dequeuedOf] at h2 h1 ⊢
      omega
    · intro hr i
      have h1 := h.each hr i
      simp only [threadpool.setPc, getElem?_set_of hp, afterStop_snoc, hlog hr, if_true]
      split
      · rename_i e
        subst e
        rw [hp] at h1
        have h3 : slot (some Pc.check) = 1 := rfl
        have h4 : slot (some (Pc.decr t)) = 0 := rfl
        rw [h3] at h1
        rw [h4, dequeuedBy_snoc_dequeued, if_pos rfl, List.length_append]
        simp only [List.length_singleton]
        omega
      · rename_i e
        have e2 : ¬ j = i := fun x => e x.symm
        rw [dequeuedBy_snoc_dequeued, if_neg e2, List.append_nil]
        exact h1

/-! ## The queue is first in, first out -/

@[simp] theorem submittedOf_append (l l1 : List Event) :
    submittedOf (l ++ l1) = submittedOf l ++ submittedOf l1 := by
  simp [submittedOf]
@[simp] theorem dequeuedOf_append (l l1 : List Event) :
    dequeuedOf (l ++ l1) = dequeuedOf l ++ dequeuedOf l1 := by
  simp [dequeuedOf]
@[simp] theorem executedOf_append (l l1 : List Event) :
    executedOf (l ++ l1) = executedOf l ++ executedOf l1 := by
  simp [executedOf]
@[simp] theorem submittedOf_submitted (t : Task) : submittedOf [Event.submitted t] = [t] := rfl
@[simp] theorem submittedOf_dequeued (i : Nat) (t : Task) :
    submittedOf [Event.dequeued i t] = [] := rfl
@[simp] theorem submittedOf_executed (i : Nat) (t : Task) :
    submittedOf [Event.executed i t] = [] := rfl
@[simp] theorem submittedOf_stop : submittedOf [Event.stop] = [] := rfl
@[simp] theorem dequeuedOf_submitted (t : Task) : dequeuedOf [Event.submitted t] = [] := rfl
@[simp] theorem dequeuedOf_dequeued (i : Nat) (t : Task) :
    dequeuedOf [Event.dequeued i t] = [t] := rfl
@[simp] theorem dequeuedOf_executed (i : Nat) (t : Task) :
    dequeuedOf [Event.executed i t] = [] := rfl
@[simp] theorem dequeuedOf_stop : dequeuedOf [Event.stop] = [] := rfl
@[simp] theorem executedOf_submitted (t : Task) : executedOf [Event.submitted t] = [] := rfl
@[simp] theorem executedOf_dequeued (i : Nat) (t : Task) :
    executedOf [Event.dequeued i t] = [] := rfl
@[simp] theorem executedOf_executed (i : Nat) (t : Task) :
    executedOf [Event.executed i t] = [t] := rfl
@[simp] theorem executedOf_stop : executedOf [Event.stop] = [] := rfl

theorem InvFifo_construct (size : Nat) : InvFifo (threadpool.construct size) := by
  obtain ⟨h1, _, _, _, h5, _, h7⟩ := construct_frame size
  constructor
  · rw [h7, h1]; rfl
  · rw [h7, h5]; rfl

theorem InvFifo_trans (s s1 : threadpool) (h : InvFifo s) (t : Trans s s1) : InvFifo s1 := by
  obtain ⟨h1, h2⟩ := h
  cases t with
  | enqueue job _ =>
    constructor
    · simp [threadpool.enqueue, h1]
    · simp [threadpool.enqueue, h2, List.range_succ]
  | dequeue j t rest hp hq =>
    constructor
    · simp [h1, hq]
    · simpa using h2
  | exec j t hp _ =>
    constructor
    · simpa using h1
    · simpa using h2
  | stop _ =>
    constructor
    · simpa using h1
    · simpa using h2
  | refuse | callers l | joinOne k _ _ | joinEnd k _ _ | notifyAll _ | wake j hp
  | enter j hp _ | leave j hp _ | lock j hp _ | predTrue j hp _ | predFalse j hp _ _
  | sleep j hp | exit j hp _ _ | decr j _ hp | incr j hp =>
    exact ⟨h1, h2⟩

theorem fifo_nodup {s : threadpool} (f : InvFifo s) :
    ((dequeuedOf s.log).map Task.fut ++ s.m_task.map Task.fut).Nodup := by
  rw [← List.map_append, ← f.order, f.ids]
  exact List.nodup_range _

theorem fifo_disjoint {s : threadpool} (f : InvFifo s) {t u : Task}
    (ht : t ∈ dequeuedOf s.log) (hu : u ∈ s.m_task) : t.fut ≠ u.fut := by
  have hd := (List.nodup_append.mp (fifo_nodup f)).2.2
  intro e
  exact hd (List.mem_map_of_mem Task.fut ht) (e ▸ List.mem_map_of_mem Task.fut hu)

theorem fifo_head {s : threadpool} (f : InvFifo s) {t u : Task} {rest : List Task}
    (hq : s.m_task = t :: rest) (hu : u ∈ rest) : u.fut ≠ t.fut := by
  have hn := (List.nodup_append.mp (fifo_nodup f)).2.1
  rw [hq, List.map_cons, List.nodup_cons] at hn
  intro e
  exact hn.1 (e ▸ List.mem_map_of_mem Task.fut hu)

theorem fifo_lt {s : threadpool} (f : InvFifo s) {t : Task} (ht : t ∈ submittedOf s.log) :
    t.fut < s.nextFut := by
  have := List.mem_map_of_mem Task.fut ht
  rw [f.ids] at this
  exact List.mem_range.mp this

/-! ## Futures -/

theorem heldAt_of {l : List Pc} {j : Nat} {a : Pc} (hp : l[j]? = some a) :
    heldAt l j = a.held := by
  simp [heldAt, hp]

theorem heldAt_set {l : List Pc} {j : Nat} {a : Pc} (hp : l[j]? = some a) (b : Pc) (i : Nat) :
    heldAt (l.set j b) i = if i = j then b.held else heldAt l i := by
  unfold heldAt
  rw [getElem?_set_of hp]
  split <;> rfl

theorem heldAt_set_same {l : List Pc} {j : Nat} {a : Pc} (hp : l[j]? = some a) (b : Pc)
    (hab : b.held = a.held) (i : Nat) : heldAt (l.set j b) i = heldAt l i := by
  rw [heldAt_set hp]
  split
  · rename_i e
    subst e
    rw [heldAt_of hp, hab]
  · rfl

theorem heldAt_wake (l : List Pc) (i : Nat) : heldAt (l.map Pc.wake) i = heldAt l i := by
  unfold heldAt
  rw [List.getElem?_map]
  cases l[i]? with
  | none => rfl
  | some pc => cases pc <;> rfl

theorem abandon_some {q : List Task} {fs : Nat → Option Outcome} {k : Nat} {o : Outcome}
    (h : fs k = some o) : abandon q fs k = some o := by
  simp [abandon, h]

theorem abandon_mem {q : List Task} {fs : Nat → Option Outcome} {t : Task}
    (ht : t ∈ q) (h : fs t.fut = none) : abandon q fs t.fut = some Outcome.broken_promise := by
  have : q.any (fun u => u.fut == t.fut) = true :=
    List.any_eq_true.mpr ⟨t, ht, by simp⟩
  simp [abandon, h, this]

theorem abandon_not_mem {q : List Task} {fs : Nat → Option Outcome} {k : Nat}
    (h : ∀ t : Task, t ∈ q → t.fut ≠ k) : abandon q fs k = fs k := by
  have : q.any (fun u => u.fut == k) = false := by
    rw [List.any_eq_false]
    intro u hu
    simpa using h u hu
  unfold abandon
  cases fs k with
  | some o => rfl
  | none => simp [this]

/-- While a worker has not returned, the pool is not destroyed. -/
theorem alive_of_pc {s : threadpool} (c : InvCore s) {j : Nat} {a : Pc}
    (hp : s.m_pool[j]? = some a) (hne : a ≠ Pc.terminated) : s.owner.isDestroyed = false := by
  cases ho : s.owner with
  | destroyed => exact absurd (c.destroyed ho j a hp) hne
  | live => rfl
  | stopped => rfl
  | joining k => rfl

theorem alive_of_run {s : threadpool} (c : InvCore s)
    (h : s.m_run = true ∨ s.owner.isDestroyed = false) : s.owner.isDestroyed = false := by
  rcases h with h | h
  · have := c.run_live
    rw [h] at this
    cases ho : s.owner with
    | destroyed => rw [ho] at this; cases this
    | live => rfl
    | stopped => rfl
    | joining k => rfl
  · exact h

theorem InvFut_congr (s s1 : threadpool) (h : InvFut s)
    (e0 : ∀ i, heldAt s1.m_pool i = heldAt s.m_pool i) (e2 : s1.m_task = s.m_task)
    (e3 : s1.futures = s.futures) (e4 : s1.nextFut = s.nextFut) (e5 : s1.log = s.log)
    (e6 : s1.owner.isDestroyed = s.owner.isDestroyed) :
    InvFut s1 := by
  constructor
  · simp only [e0, e5]; exact h.held_dequeued
  · simp only [e0, e5]; exact h.dequeued_cases
  · simp only [e0]; exact h.held_unique
  · simp only [e2, e3, e6]; exact h.queue_pending
  · simp only [e2, e3, e6]; exact h.queue_broken
  · simp only [e0, e3]; exact h.held_pending
  · simp only [e3, e4]; exact h.fresh
  · simp only [e3, e5]; exact h.executed_ready
  · simp only [e5]; exact h.executed_dequeued

theorem InvFut_construct (size : Nat) : InvFut (threadpool.construct size) := by
  obtain ⟨h1, _, _, h4, h5, _, h7⟩ := construct_frame size
  have hp := construct_pcs size
  have hh : ∀ i, heldAt (threadpool.construct size).m_pool i = none := by
    intro i
    unfold heldAt
    cases hi : (threadpool.construct size).m_pool[i]? with
    | none => rfl
    | some pc => rw [hp i pc hi]; rfl
  constructor
  · intro i t ht; rw [hh] at ht; cases ht
  · intro t ht; rw [h7] at ht; cases ht
  · intro i j t u ht; rw [hh] at ht; cases ht
  · intro _ t ht; rw [h1] at ht; cases ht
  · intro _ t ht; rw [h1] at ht; cases ht
  · intro i t ht; rw [hh] at ht; cases ht
  · intro k _; rw [h4]
  · intro t ht; rw [h7] at ht; cases ht
  · intro t ht; rw [h7] at ht; cases ht

theorem InvFut_trans (s s1 : threadpool) (c : InvCore s) (f : InvFifo s) (h : InvFut s)
    (t : Trans s s1) : InvFut s1 := by
  cases t with
  | refuse => exact h
  | callers l => exact InvFut_congr _ _ h (fun _ => rfl) rfl rfl rfl rfl rfl
  | stop ho =>
    have hl : s.owner.isDestroyed = false := by rw [ho]; rfl
    refine ⟨?_, ?_, h.held_unique, fun _ => h.queue_pending hl, ?_, h.held_pending,
      h.fresh, ?_, ?_⟩
    · simpa using h.held_dequeued
    · simpa using h.dequeued_cases
    · intro hd; cases hd
    · simpa using h.executed_ready
    · simpa using h.executed_dequeued
  | joinOne k ho _ =>
    exact InvFut_congr _ _ h (fun _ => rfl) rfl rfl rfl rfl (by rw [ho]; rfl)
  | notifyAll ho =>
    exact InvFut_congr _ _ h (fun i => heldAt_wake _ i) rfl rfl rfl rfl (by rw [ho]; rfl)
  | joinEnd k ho hp =>
    have hl : s.owner.isDestroyed = false := by rw [ho]; rfl
    have hq := h.queue_pending hl
    refine ⟨h.held_dequeued, h.dequeued_cases, h.held_unique, ?_, ?_, ?_, ?_, ?_,
      h.executed_dequeued⟩
    · intro hd; cases hd
    · intro _ u hu
      exact abandon_mem hu (hq u hu)
    · intro i u hu
      have := h.held_pending i u hu
      show abandon s.m_task s.futures u.fut = none
      rw [abandon_not_mem]
      · exact this
      · intro v hv e
        exact fifo_disjoint f (h.held_dequeued i u hu) hv e.symm
    · intro x hx
      show abandon s.m_task s.futures x = none
      rw [abandon_not_mem]
      · exact h.fresh x hx
      · intro v hv e
        have hlt : v.fut < s.nextFut :=
          fifo_lt f (by rw [f.order]; exact List.mem_append_right _ hv)
        simp only at hx
        omega
    · intro u hu
      exact abandon_some (h.executed_ready u hu)
  | wake j hp | enter j hp _ | leave j hp _ | lock j hp _ | predTrue j hp _
  | predFalse j hp _ _ | sleep j hp | exit j hp _ _ | decr j _ hp | incr j hp =>
    refine InvFut_congr _ _ h (fun i => ?_) rfl rfl rfl rfl rfl
    refine heldAt_set_same hp _ ?_ i
    rfl
  | enqueue job hr =>
    have hl : s.owner.isDestroyed = false := alive_of_run c hr
    refine ⟨?_, ?_, h.held_unique, ?_, ?_, h.held_pending, ?_, ?_, ?_⟩
    · simpa [threadpool.enqueue] using h.held_dequeued
    · simpa [threadpool.enqueue] using h.dequeued_cases
    · intro _ u hu
      simp only [threadpool.enqueue, List.mem_append, List.mem_singleton] at hu
      rcases hu with hu | hu
      · exact h.queue_pending hl u hu
      · subst hu
        exact h.fresh _ (Nat.le_refl _)
    · intro hd
      have : s.owner.isDestroyed = true := hd
      rw [hl] at this
      cases this
    · intro k hk
      simp only [threadpool.enqueue] at hk
      exact h.fresh k (by omega)
    · simpa [threadpool.enqueue] using h.executed_ready
    · simpa [threadpool.enqueue] using h.executed_dequeued
  | dequeue j t rest hp hq =>
    have hl : s.owner.isDestroyed = false := alive_of_pc c hp (by intro e; cases e)
    have hmem : t ∈ s.m_task := by rw [hq]; exact List.mem_cons_self _ _
    have hset : ∀ i, heldAt (s.m_pool.set j (Pc.decr t)) i =
        if i = j then some t else heldAt s.m_pool i := fun i => heldAt_set hp _ i
    constructor
    · intro i u hu
      simp only [threadpool.setPc, hset] at hu
      simp only [dequeuedOf_append, dequeuedOf_dequeued, List.mem_append, List.mem_singleton]
      split at hu
      · cases hu; exact Or.inr rfl
      · exact Or.inl (h.held_dequeued i u hu)
    · intro u hu
      simp only [dequeuedOf_append, dequeuedOf_dequeued, List.mem_append,
        List.mem_singleton] at hu
      simp only [executedOf_append, executedOf_dequeued, List.append_nil, threadpool.setPc, hset]
      rcases hu with hu | hu
      · rcases h.dequeued_cases u hu with he | ⟨i, hi⟩
        · exact Or.inl he
        · refine Or.inr ⟨i, ?_⟩
          have : i ≠ j := by
            intro e
            subst e
            rw [heldAt_of hp] at hi
            cases hi
          rw [if_neg this]
          exact hi
      · subst hu
        exact Or.inr ⟨j, by rw [if_pos rfl]⟩
    · intro i k u v hu hv e
      simp only [threadpool.setPc, hset] at hu hv
      split at hu <;> split at hv
      · rename_i e1 e2; rw [e1, e2]
      · cases hu
        exact absurd e.symm (fifo_disjoint f (h.held_dequeued k v hv) hmem)
      · cases hv
        exact absurd e (fifo_disjoint f (h.held_dequeued i u hu) hmem)
      · exact h.held_unique i k u v hu hv e
    · intro _ u hu
      exact h.queue_pending hl u (by rw [hq]; exact List.mem_cons_of_mem _ hu)
    · intro hd
      have : s.owner.isDestroyed = true := hd
      rw [hl] at this
      cases this
    · intro i u hu
      simp only [threadpool.setPc, hset] at hu
      split at hu
      · cases hu
        exact h.queue_pending hl _ hmem
      · exact h.held_pending i u hu
    · exact h.fresh
    · simpa using h.executed_ready
    · intro u hu
      simp only [executedOf_append, executedOf_dequeued, List.append_nil] at hu
      simp only [dequeuedOf_append, dequeuedOf_dequeued, List.mem_append, List.mem_singleton]
      exact Or.inl (h.executed_dequeued u hu)
  | exec j t hp hn =>
    have hl : s.owner.isDestroyed = false := alive_of_pc c hp (by intro e; cases e)
    have hj : heldAt s.m_pool j = some t := heldAt_of hp
    have hdq : t ∈ dequeuedOf s.log := h.held_dequeued j t hj
    have hset : ∀ i, heldAt (s.m_pool.set j Pc.incr) i =
        if i = j then none else heldAt s.m_pool i := fun i => heldAt_set hp _ i
    constructor
    · intro i u hu
      simp only [threadpool.setPc, hset] at hu
      simp only [dequeuedOf_append, dequeuedOf_executed, List.append_nil]
      split at hu
      · cases hu
      · exact h.held_dequeued i u hu
    · intro u hu
      simp only [dequeuedOf_append, dequeuedOf_executed, List.append_nil] at hu
      simp only [executedOf_append, executedOf_executed, List.mem_append, List.mem_singleton,
        threadpool.setPc, hset]
      rcases h.dequeued_cases u hu with he | ⟨i, hi⟩
      · exact Or.inl (Or.inl he)
      · by_cases e : i = j
        · subst e
          rw [hj] at hi
          cases hi
          exact Or.inl (Or.inr rfl)
        · exact Or.inr ⟨i, by rw [if_neg e]; exact hi⟩
    · intro i k u v hu hv e
      simp only [threadpool.setPc, hset] at hu hv
      split at hu
      · cases hu
      · split at hv
        · cases hv
        · exact h.held_unique i k u v hu hv e
    · intro _ u hu
      have : u.fut ≠ t.fut := fun e => fifo_disjoint f hdq hu e.symm
      simp only [if_neg this]
      exact h.queue_pending hl u hu
    · intro hd
      have : s.owner.isDestroyed = true := hd
      rw [hl] at this
      cases this
    · intro i u hu
      simp only [threadpool.setPc, hset] at hu
      split at hu
      · cases hu
      · rename_i e
        have : u.fut ≠ t.fut := fun e2 => e (h.held_unique i j u t hu hj e2)
        simp only [if_neg this]
        exact h.held_pending i u hu
    · intro k hk
      have hlt : t.fut < s.nextFut :=
        fifo_lt f (by rw [f.order]; exact List.mem_append_left _ hdq)
      have : k ≠ t.fut := by
        simp only [setPc_nextFut] at hk
        omega
      simp only [if_neg this]
      exact h.fresh k hk
    · intro u hu
      simp only [executedOf_append, executedOf_executed, List.mem_append,
        List.mem_singleton] at hu
      rcases hu with hu | hu
      · have h1 := h.executed_ready u hu
        have : u.fut ≠ t.fut := by
          intro e
          rw [e, hn] at h1
          cases h1
        simp only [if_neg this]
        exact h1
      · subst hu
        simp
    · intro u hu
      simp only [executedOf_append, executedOf_executed, List.mem_append,
        List.mem_singleton] at hu
      simp only [dequeuedOf_append, dequeuedOf_executed, List.append_nil]
      rcases hu with hu | hu
      · exact h.executed_dequeued u hu
      · subst hu
        exact hdq

theorem Inv_trans (a b : threadpool) (hi : Inv a) (t : Trans a b) : Inv b :=
  ⟨InvCore_trans a b hi.core t, InvIdle_trans a b hi.idle t,
    InvStop_trans a b hi.core hi.stop t, InvFifo_trans a b hi.fifo t,
    InvFut_trans a b hi.core hi.fifo hi.fut t⟩

theorem Inv_run {acts : List Action} {s s1 : threadpool} (hi : Inv s)
    (h : s.run acts = some s1) : Inv s1 :=
  run_invariant Inv Inv_trans acts _ _ hi h

/-- The invariants hold in every reachable state. -/
theorem Inv_reachable {size : Nat} {acts : List Action} {s : threadpool}
    (h : (threadpool.construct size).run acts = some s) : Inv s := by
  refine Inv_run ?_ h
  · exact ⟨InvCore_construct size, InvIdle_construct size, InvStop_construct size,
      InvFifo_construct size, InvFut_construct size⟩

/-! ## The steps of one round of the worker loop -/

theorem step_loopHead {s : threadpool} {i : Nat} (hp : s.m_pool[i]? = some Pc.loopHead)
    (hr : s.m_run = true) : s.step (Action.worker i) = some (s.setPc i Pc.acquire) := by
  simp [threadpool.step, threadpool.workerStep, hp, hr]

theorem step_acquire {s : threadpool} {i : Nat} (hp : s.m_pool[i]? = some Pc.acquire)
    (hl : s.m_lock = none) :
    s.step (Action.worker i) = some { s.setPc i Pc.waitPred with m_lock := some i } := by
  simp [threadpool.step, threadpool.workerStep, hp, hl]

theorem step_waitPred {s : threadpool} {i : Nat} {t : Task} {rest : List Task}
    (hp : s.m_pool[i]? = some Pc.waitPred) (hq : s.m_task = t :: rest) :
    s.step (Action.worker i) = some (s.setPc i Pc.check) := by
  simp [threadpool.step, threadpool.workerStep, hp, hq]

theorem step_check {s : threadpool} {i : Nat} {t : Task} {rest : List Task}
    (hp : s.m_pool[i]? = some Pc.check) (hq : s.m_task = t :: rest) :
    s.step (Action.worker i) =
      some { s.setPc i (Pc.decr t) with
               m_task := rest, m_lock := none, log := s.log ++ [Event.dequeued i t] } := by
  simp [threadpool.step, threadpool.workerStep, hp, hq]

theorem step_decr {s : threadpool} {i : Nat} {t : Task}
    (hp : s.m_pool[i]? = some (Pc.decr t)) :
    s.step (Action.worker i) =
      some { s.setPc i (Pc.exec t) with m_idl_thread_num := s.m_idl_thread_num - 1 } := by
  simp [threadpool.step, threadpool.workerStep, hp]

theorem step_exec {s : threadpool} {i : Nat} {t : Task}
    (hp : s.m_pool[i]? = some (Pc.exec t)) (hn : s.futures t.fut = none) :
    s.step (Action.worker i) =
      some { s.setPc i Pc.incr with
               futures := fun k => if k = t.fut then some (t.call ()) else s.futures k,
               log := s.log ++ [Event.executed i t] } := by
  simp [threadpool.step, threadpool.workerStep, hp, hn]

theorem step_incr {s : threadpool} {i : Nat} (hp : s.m_pool[i]? = some Pc.incr) :
    s.step (Action.worker i) =
      some { s.setPc i Pc.loopHead with m_idl_thread_num := s.m_idl_thread_num + 1 } := by
  simp [threadpool.step, threadpool.workerStep, hp]

theorem setPc_getElem? {s : threadpool} {i : Nat} {a : Pc} (hp : s.m_pool[i]? = some a)
    (b : Pc) : (s.setPc i b).m_pool[i]? = some b := by
  simp only [threadpool.setPc, getElem?_set_of hp, if_pos]

theorem step_waitPred_empty {s : threadpool} {i : Nat}
    (hp : s.m_pool[i]? = some Pc.waitPred) (hr : s.m_run = true) (hq : s.m_task = []) :
    s.step (Action.worker i) = some (s.setPc i Pc.waitEnter) := by
  simp [threadpool.step, threadpool.workerStep, hp, hq, hr]

theorem step_waitEnter {s : threadpool} {i : Nat} (hp : s.m_pool[i]? = some Pc.waitEnter) :
    s.step (Action.worker i) = some { s.setPc i Pc.blocked with m_lock := none } := by
  simp [threadpool.step, threadpool.workerStep, hp]

theorem run_cons {s s1 : threadpool} {a : Action} (h : s.step a = some s1)
    (rest : List Action) : s.run (a :: rest) = s1.run rest := by
  simp only [threadpool.run, h]

theorem run_append (s : threadpool) (xs ys : List Action) :
    s.run (xs ++ ys) = (s.run xs).bind (fun m => m.run ys) := by
  induction xs generalizing s with
  | nil => rfl
  | cons a xs ih =>
    simp only [List.cons_append, threadpool.run]
    cases s.step a with
    | none => rfl
    | some m => exact ih m

theorem setPc_getElem?_ne {s : threadpool} {i j : Nat} {a : Pc} (hp : s.m_pool[j]? = some a)
    (b : Pc) (hne : i ≠ j) : (s.setPc j b).m_pool[i]? = s.m_pool[i]? := by
  simp only [threadpool.setPc, getElem?_set_of hp, if_neg hne]

theorem Inv_step {s s1 : threadpool} {a : Action} (hi : Inv s) (h : s.step a = some s1) :
    Inv s1 :=
  chain_invariant Inv Inv_trans (step_trans h) hi

/-- In a reachable state the step of a worker is undefined only while the worker waits for
the mutex, sleeps on the condition variable, or has returned: `front()` is never called
on an empty queue and no `packaged_task` is invoked twice. -/
theorem workerStep_defined (size : Nat) (acts : List Action) (s : threadpool) (i : Nat)
    (pc : Pc) (h : (threadpool.construct size).run acts = some s)
    (hp : s.m_pool[i]? = some pc) (hb : pc.isBlocked = false)
    (ht : pc.phase ≠ Phase.Terminated) (hl : pc = Pc.acquire → s.m_lock = none) :
    ∃ s1 : threadpool, s.step (Action.worker i) = some s1 := by
  have hi := Inv_reachable h
  cases pc with
  | loopHead =>
    cases hr : s.m_run with
    | true => exact ⟨_, step_loopHead hp hr⟩
    | false => exact ⟨s.setPc i Pc.terminated, by
        simp [threadpool.step, threadpool.workerStep, hp, hr]⟩
  | acquire => exact ⟨_, step_acquire hp (hl rfl)⟩
  | waitPred =>
    cases hq : s.m_task with
    | cons u rest => exact ⟨_, step_waitPred hp hq⟩
    | nil =>
      cases hr : s.m_run with
      | true => exact ⟨_, step_waitPred_empty hp hr hq⟩
      | false => exact ⟨s.setPc i Pc.check, by
          simp [threadpool.step, threadpool.workerStep, hp, hr]⟩
  | waitEnter => exact ⟨_, step_waitEnter hp⟩
  | blocked => cases hb
  | check =>
    cases hq : s.m_task with
    | cons u rest => exact ⟨_, step_check hp hq⟩
    | nil =>
      rcases hi.core.check_ok i hp with hr | hne
      · exact ⟨{ s.setPc i Pc.terminated with m_lock := none }, by
          simp [threadpool.step, threadpool.workerStep, hp, hr, hq]⟩
      · exact absurd hq hne
  | decr u => exact ⟨_, step_decr hp⟩
  | exec u => exact ⟨_, step_exec hp (hi.fut.held_pending i u (heldAt_of hp))⟩
  | incr => exact ⟨_, step_incr hp⟩
  | terminated => exact absurd rfl ht

/-! ## How a worker terminates -/

theorem phase_terminated {pc : Pc} (h : pc.phase = Phase.Terminated) : pc = Pc.terminated := by
  cases pc <;> first | rfl | cases h

/-- A step of worker `j` changes only slot `j`; the new program counter is `terminated`
only at the loop condition or at the check after `wait`, with `m_run` false. -/
theorem workerStep_pool {s s1 : threadpool} {j : Nat} (h : s.workerStep j = some s1) :
    ∃ a b : Pc, s.m_pool[j]? = some a ∧ s1.m_pool = s.m_pool.set j b ∧
      (b = Pc.terminated → s.m_run = false ∧
        (a = Pc.loopHead ∨ (a = Pc.check ∧ s.m_task = []))) := by
  unfold threadpool.workerStep at h
  split at h
  · cases h
  · rename_i hp
    split at h <;> cases h
    · exact ⟨_, Pc.acquire, hp, rfl, fun e => by cases e⟩
    · exact ⟨_, Pc.terminated, hp, rfl, fun _ => ⟨(Bool.not_eq_true _).mp ‹_›, Or.inl rfl⟩⟩
  · rename_i hp
    split at h
    · cases h; exact ⟨_, Pc.waitPred, hp, rfl, fun e => by cases e⟩
    · cases h
  · rename_i hp
    split at h <;> cases h
    · exact ⟨_, Pc.check, hp, rfl, fun e => by cases e⟩
    · exact ⟨_, Pc.waitEnter, hp, rfl, fun e => by cases e⟩
  · rename_i hp
    cases h; exact ⟨_, Pc.blocked, hp, rfl, fun e => by cases e⟩
  · cases h
  · rename_i hp
    split at h
    · rename_i hc
      cases h
      simp at hc
      exact ⟨_, Pc.terminated, hp, rfl, fun _ => ⟨hc.1, Or.inr ⟨rfl, hc.2⟩⟩⟩
    · split at h
      · cases h
      · cases h
        exact ⟨_, Pc.decr _, hp, rfl, fun e => by cases e⟩
  · rename_i hp
    cases h; exact ⟨_, Pc.exec _, hp, rfl, fun e => by cases e⟩
  · rename_i hp
    split at h
    · cases h
    · cases h; exact ⟨_, Pc.incr, hp, rfl, fun e => by cases e⟩
  · rename_i hp
    cases h; exact ⟨_, Pc.loopHead, hp, rfl, fun e => by cases e⟩
  · cases h

/-- Only the step after `wait` changes the queue. -/
theorem workerStep_task {s s1 : threadpool} {j : Nat} (h : s.workerStep j = some s1) :
    s1.m_task = s.m_task ∨ s.m_pool[j]? = some Pc.check := by
  unfold threadpool.workerStep at h
  split at h
  · cases h
  · split at h <;> cases h <;> exact Or.inl rfl
  · split at h <;> cases h
    exact Or.inl rfl
  · split at h <;> cases h <;> exact Or.inl rfl
  · cases h; exact Or.inl rfl
  · cases h
  · rename_i hp
    exact Or.inr hp
  · cases h; exact Or.inl rfl
  · split at h <;> cases h
    exact Or.inl rfl
  · cases h; exact Or.inl rfl
  · cases h

theorem wake_phase (l : List Pc) (i : Nat) :
    (l.map Pc.wake)[i]?.map Pc.phase = l[i]?.map Pc.phase := by
  rw [List.getElem?_map]
  cases l[i]? with
  | none => rfl
  | some pc => cases pc <;> rfl

theorem set_acquire_phase {l : List Pc} {j : Nat} (hp : l[j]? = some Pc.blocked) (i : Nat) :
    (l.set j Pc.acquire)[i]?.map Pc.phase = l[i]?.map Pc.phase := by
  rw [getElem?_set_of hp]
  split
  · rename_i e
    subst e
    rw [hp]
    rfl
  · rfl

theorem notify_one_phase (p : threadpool) (pick : Nat) (i : Nat) :
    (p.notify_one pick).m_pool[i]?.map Pc.phase = p.m_pool[i]?.map Pc.phase := by
  rcases notify_one_cases p pick with e | ⟨j, hj, e⟩
  · rw [e]
  · rw [e]
    exact set_acquire_phase hj i

/-- Only a step of worker `i` itself changes the phase of worker `i`. -/
theorem step_phase {s s1 : threadpool} {a : Action} (h : s.step a = some s1) (i : Nat)
    (hne : ∀ j, a = Action.worker j → j ≠ i) :
    s1.m_pool[i]?.map Pc.phase = s.m_pool[i]?.map Pc.phase := by
  cases a with
  | commit job pick =>
    simp only [threadpool.step] at h
    split at h
    · cases h
    · by_cases hr : s.m_run = true
      · rw [commit_ok_eq s job pick hr] at h
        simp only [Option.some.injEq] at h
        subst h
        exact notify_one_phase _ pick i
      · have hr2 : s.m_run = false := (Bool.not_eq_true _).mp hr
        simp only [threadpool.commit, hr2, if_true] at h
        cases h
        rfl
  | commitTest job =>
    simp only [threadpool.step] at h
    split at h <;> cases h <;> rfl
  | commitRest k pick =>
    simp only [threadpool.step] at h
    split at h
    · cases h
    · split at h
      · cases h
      · split at h
        · cases h
        · cases h
          exact notify_one_phase _ pick i
  | worker j =>
    obtain ⟨a, b, hp, hs, _⟩ := workerStep_pool h
    rw [hs, getElem?_set_of hp, if_neg (fun e => hne j rfl e.symm)]
  | spurious j =>
    simp only [threadpool.step] at h
    split at h
    · rename_i hp
      cases h
      exact set_acquire_phase hp i
    · cases h
  | stop =>
    simp only [threadpool.step] at h
    split at h <;> cases h
    rfl
  | notifyAll =>
    simp only [threadpool.step] at h
    split at h <;> cases h
    exact wake_phase _ i
  | join =>
    simp only [threadpool.step] at h
    split at h
    · split at h <;> cases h <;> rfl
    · cases h

/-! ## What a future holds -/

/-- An accepted `commit` is an enqueue, possibly followed by a wake-up. -/
theorem commit_ok_inv {α : Type} {s s2 : threadpool} {f : α → Outcome} {args : α}
    {pick h : Nat} (hc : s.commit f args pick = .ok (h, s2)) :
    s.m_run = true ∧ h = s.nextFut ∧ s2 = (s.enqueue (bind f args)).notify_one pick := by
  unfold threadpool.commit at hc
  split at hc
  · cases hc
  · rename_i hr
    simp only [Except.ok.injEq, Prod.mk.injEq] at hc
    exact ⟨by simpa using hr, hc.1.symm, hc.2.symm⟩

theorem Inv_commit {α : Type} {s s2 : threadpool} {f : α → Outcome} {args : α}
    {pick h : Nat} (hi : Inv s) (hc : s.commit f args pick = .ok (h, s2)) : Inv s2 := by
  obtain ⟨hr, _, rfl⟩ := commit_ok_inv hc
  have h1 : Inv (s.enqueue (bind f args)) := Inv_trans _ _ hi (Trans.enqueue _ (Or.inl hr))
  rcases notify_one_cases (s.enqueue (bind f args)) pick with e | ⟨j, hj, e⟩
  · rw [e]; exact h1
  · rw [e]; exact Inv_trans _ _ h1 (Trans.wake j hj)

/-- A transition accepts at most one task, and that task carries the next future. -/
theorem submitted_trans (s s1 : threadpool) (t : Trans s s1) :
    s.nextFut ≤ s1.nextFut ∧
      (submittedOf s1.log = submittedOf s.log ∨
        ∃ job, submittedOf s1.log = submittedOf s.log ++ [{ fut := s.nextFut, call := job }]) := by
  cases t with
  | enqueue job _ =>
    exact ⟨Nat.le_succ _, Or.inr ⟨job, by simp [threadpool.enqueue]⟩⟩
  | dequeue j t rest hp hq => exact ⟨Nat.le_refl _, Or.inl (by simp)⟩
  | exec j t hp _ => exact ⟨Nat.le_refl _, Or.inl (by simp)⟩
  | stop _ => exact ⟨Nat.le_refl _, Or.inl (by simp)⟩
  | refuse | callers l | joinOne k _ _ | joinEnd k _ _ | notifyAll _ | wake j hp
  | enter j hp _ | leave j hp _ | lock j hp _ | predTrue j hp _ | predFalse j hp _ _
  | sleep j hp | exit j hp _ _ | decr j _ hp | incr j hp =>
    exact ⟨Nat.le_refl _, Or.inl rfl⟩

theorem Carries_trans (h : Nat) (o : Outcome) (s s1 : threadpool) (c : Carries h o s)
    (t : Trans s s1) : Carries h o s1 := by
  obtain ⟨hle, hs⟩ := submitted_trans s s1 t
  refine ⟨Nat.lt_of_lt_of_le c.1 hle, ?_⟩
  intro u hu hf
  rcases hs with e | ⟨job, e⟩
  · rw [e] at hu
    exact c.2 u hu hf
  · rw [e, List.mem_append, List.mem_singleton] at hu
    rcases hu with hu | hu
    · exact c.2 u hu hf
    · subst hu
      have := c.1
      simp only at hf
      omega

theorem mem_executedOf {log : List Event} {i : Nat} {t : Task}
    (h : Event.executed i t ∈ log) : t ∈ executedOf log := by
  unfold executedOf
  rw [List.mem_filterMap]
  exact ⟨_, h, rfl⟩

/-! ## Progress of a running pool -/

/-- Whoever holds the mutex releases it within two steps of its own; these steps leave
the futures and a worker waiting at the loop condition as they are. -/
theorem free_lock {s : threadpool} {i : Nat} (hi : Inv s) (hr : s.m_run = true)
    (hp : s.m_pool[i]? = some Pc.loopHead) :
    ∃ (pre : List Action) (sa : threadpool), s.run pre = some sa ∧ sa.m_lock = none ∧
      sa.m_run = true ∧ sa.futures = s.futures ∧ sa.nextFut = s.nextFut ∧
      sa.m_pool[i]? = some Pc.loopHead := by
  cases hl : s.m_lock with
  | none => exact ⟨[], s, rfl, hl, hr, rfl, rfl, hp⟩
  | some j =>
    obtain ⟨pc, hj, hlk⟩ := hi.core.of_lock j hl
    have hne : i ≠ j := by
      intro e
      subst e
      rw [hp] at hj
      cases hj
      cases hlk
    cases pc with
    | waitEnter =>
      refine ⟨[Action.worker j], { s.setPc j Pc.blocked with m_lock := none },
        ?_, rfl, hr, rfl, rfl, ?_⟩
      · rw [run_cons (step_waitEnter hj)]; rfl
      · exact (setPc_getElem?_ne hj _ hne).trans hp
    | check =>
      cases hq : s.m_task with
      | nil =>
        rcases hi.core.check_ok j hj with h | h
        · rw [hr] at h; cases h
        · exact absurd hq h
      | cons u rest =>
        refine ⟨[Action.worker j],
          { s.setPc j (Pc.decr u) with
              m_task := rest, m_lock := none, log := s.log ++ [Event.dequeued j u] },
          ?_, rfl, hr, rfl, rfl, ?_⟩
        · rw [run_cons (step_check hj hq)]; rfl
        · exact (setPc_getElem?_ne hj _ hne).trans hp
    | waitPred =>
      cases hq : s.m_task with
      | nil =>
        have h1 := step_waitPred_empty hj hr hq
        have hj1 : (s.setPc j Pc.waitEnter).m_pool[j]? = some Pc.waitEnter :=
          setPc_getElem? hj _
        refine ⟨[Action.worker j, Action.worker j],
          { (s.setPc j Pc.waitEnter).setPc j Pc.blocked with m_lock := none },
          ?_, rfl, hr, rfl, rfl, ?_⟩
        · rw [run_cons h1, run_cons (step_waitEnter hj1)]; rfl
        · exact (setPc_getElem?_ne hj1 _ hne).trans
            ((setPc_getElem?_ne hj _ hne).trans hp)
      | cons u rest =>
        have h1 := step_waitPred hj hq
        have hj1 : (s.setPc j Pc.check).m_pool[j]? = some Pc.check := setPc_getElem? hj _
        have hq1 : (s.setPc j Pc.check).m_task = u :: rest := hq
        refine ⟨[Action.worker j, Action.worker j],
          { (s.setPc j Pc.check).setPc j (Pc.decr u) with
              m_task := rest, m_lock := none,
              log := (s.setPc j Pc.check).log ++ [Event.dequeued j u] },
          ?_, rfl, hr, rfl, rfl, ?_⟩
        · rw [run_cons h1, run_cons (step_check hj1 hq1)]; rfl
        · exact (setPc_getElem?_ne hj1 _ hne).trans
            ((setPc_getElem?_ne hj _ hne).trans hp)
    | loopHead => cases hlk
    | acquire => cases hlk
    | blocked => cases hlk
    | decr u => cases hlk
    | exec u => cases hlk
    | incr => cases hlk
    | terminated => cases hlk

/-- One round of the loop: a worker at the loop condition of a running pool, the mutex
free and a task at the head of the queue, takes that task and makes its future ready
in seven steps, and is back at the loop condition. -/
theorem round {s : threadpool} {i : Nat} {u : Task} {rest : List Task} (hi : Inv s)
    (hr : s.m_run = true) (hl : s.m_lock = none) (hp : s.m_pool[i]? = some Pc.loopHead)
    (hq : s.m_task = u :: rest) :
    ∃ sb : threadpool, s.run (steps i 7) = some sb ∧ sb.m_run = true ∧ sb.m_lock = none ∧
      sb.m_pool[i]? = some Pc.loopHead ∧ sb.m_task = rest ∧
      sb.futures u.fut = some (u.call ()) ∧
      (∀ (k : Nat) (o : Outcome), s.futures k = some o → sb.futures k = some o) := by
  have hn : s.futures u.fut = none :=
    hi.fut.queue_pending (alive_of_run hi.core (Or.inl hr)) u
      (by rw [hq]; exact List.mem_cons_self _ _)
  have e1 := step_loopHead hp hr
  have p1 : (s.setPc i Pc.acquire).m_pool[i]? = some Pc.acquire := setPc_getElem? hp _
  have e2 := step_acquire p1 (show (s.setPc i Pc.acquire).m_lock = none from hl)
  generalize h2 : ({ s.setPc i Pc.acquire |>.setPc i Pc.waitPred with m_lock := some i } :
    threadpool) = s2 at e2
  have p2 : s2.m_pool[i]? = some Pc.waitPred := by
    rw [← h2]; exact setPc_getElem? p1 _
  have q2 : s2.m_task = u :: rest := by rw [← h2]; exact hq
  have e3 := step_waitPred p2 q2
  have p3 : (s2.setPc i Pc.check).m_pool[i]? = some Pc.check := setPc_getElem? p2 _
  have e4 := step_check p3 (show (s2.setPc i Pc.check).m_task = u :: rest from q2)
  generalize h4 : ({ s2.setPc i Pc.check |>.setPc i (Pc.decr u) with
    m_task := rest, m_lock := none,
    log := (s2.setPc i Pc.check).log ++ [Event.dequeued i u] } : threadpool) = s4 at e4
  have p4 : s4.m_pool[i]? = some (Pc.decr u) := by
    rw [← h4]; exact setPc_getElem? p3 _
  have e5 := step_decr p4
  generalize h5 : ({ s4.setPc i (Pc.exec u) with
    m_idl_thread_num := s4.m_idl_thread_num - 1 } : threadpool) = s5 at e5
  have p5 : s5.m_pool[i]? = some (Pc.exec u) := by
    rw [← h5]; exact setPc_getElem? p4 _
  have f5 : s5.futures = s.futures := by rw [← h5, ← h4, ← h2]; rfl
  have e6 := step_exec p5 (by rw [f5]; exact hn)
  generalize h6 : ({ s5.setPc i Pc.incr with
    futures := fun k => if k = u.fut then some (u.call ()) else s5.futures k,
    log := s5.log ++ [Event.executed i u] } : threadpool) = s6 at e6
  have p6 : s6.m_pool[i]? = some Pc.incr := by
    rw [← h6]; exact setPc_getElem? p5 _
  have e7 := step_incr p6
  refine ⟨{ s6.setPc i Pc.loopHead with m_idl_thread_num := s6.m_idl_thread_num + 1 },
    ?_, ?_, ?_, setPc_getElem? p6 _, ?_, ?_, ?_⟩
  · show s.run (List.replicate 7 (Action.worker i)) = _
    simp only [List.replicate]
    rw [run_cons e1, run_cons e2, run_cons e3, run_cons e4, run_cons e5, run_cons e6,
      run_cons e7]
    rfl
  · rw [← h6, ← h5, ← h4, ← h2]; exact hr
  · rw [← h6, ← h5, ← h4]; rfl
  · rw [← h6, ← h5, ← h4]; rfl
  · rw [← h6]; simp
  · intro k o hk
    rw [← h6]
    simp only [setPc_futures]
    have : k ≠ u.fut := by
      intro e
      rw [e, hn] at hk
      cases hk
    rw [if_neg this, f5]
    exact hk

theorem steps_add (i a b : Nat) : steps i (a + b) = steps i a ++ steps i b := by
  unfold steps
  exact List.replicate_add a b _

/-- A worker alone at the loop condition of a running pool, the mutex free, works off the
whole queue: afterwards the future of every task that was queued is ready and holds
the outcome of its callable. -/
theorem drain (i : Nat) (q : List Task) :
    ∀ s : threadpool, Inv s → s.m_run = true → s.m_lock = none →
      s.m_pool[i]? = some Pc.loopHead → s.m_task = q →
      ∃ sb : threadpool, s.run (steps i (7 * q.length)) = some sb ∧
        (∀ u : Task, u ∈ q → sb.futures u.fut = some (u.call ())) ∧
        (∀ (k : Nat) (o : Outcome), s.futures k = some o → sb.futures k = some o) := by
  induction q with
  | nil =>
    intro s _ _ _ _ _
    exact ⟨s, rfl, fun u hu => (by cases hu), fun _ _ h => h⟩
  | cons u rest ih =>
    intro s hi hr hl hp hq
    obtain ⟨s1, r1, hr1, hl1, hp1, hq1, hf1, hm1⟩ := round hi hr hl hp hq
    obtain ⟨s2, r2, hf2, hm2⟩ := ih s1 (Inv_run hi r1) hr1 hl1 hp1 hq1
    refine ⟨s2, ?_, ?_, fun k o h => hm2 k o (hm1 k o h)⟩
    · have : 7 * (u :: rest).length = 7 + 7 * rest.length := by
        simp only [List.length_cons]; omega
      rw [this, steps_add, run_append, r1]
      exact r2
    · intro v hv
      rcases List.mem_cons.mp hv with e | hv
      · subst e
        exact hm2 _ _ hf1
      · exact hf2 v hv

theorem notify_one_loopHead (p : threadpool) (pick : Nat) {i : Nat}
    (hp : p.m_pool[i]? = some Pc.loopHead) :
    (p.notify_one pick).m_pool[i]? = some Pc.loopHead := by
  rcases notify_one_cases p pick with e | ⟨j, hj, e⟩
  · rw [e]; exact hp
  · rw [e]
    have hne : i ≠ j := by
      intro x
      subst x
      rw [hp] at hj
      cases hj
    exact (setPc_getElem?_ne hj _ hne).trans hp

/-- From a running pool with a worker at the loop condition, a further `commit` is accepted
and there is a schedule (the holder of the mutex releases it, the commit happens, the
worker works off the queue) after which the new future is ready. -/
theorem commit_then_drain {s : threadpool} {i : Nat} (hi : Inv s) (hr : s.m_run = true)
    (hp : s.m_pool[i]? = some Pc.loopHead) (job : Unit → Outcome) (pick : Nat) :
    ∃ (pre post : List Action) (sa sb sc : threadpool) (hnd : Nat),
      s.run pre = some sa ∧ sa.m_lock = none ∧
      sa.commit job () pick = .ok (hnd, sb) ∧
      sa.step (Action.commit job pick) = some sb ∧
      sb.run post = some sc ∧
      sc.futures hnd = some (job ()) ∧
      (∀ (k : Nat) (o : Outcome), s.futures k = some o → sc.futures k = some o) := by
  obtain ⟨pre, sa, ra, la, hra, fa, _, pa⟩ := free_lock hi hr hp
  have ia : Inv sa := Inv_run hi ra
  have ec := commit_ok_eq sa job pick hra
  have es : sa.step (Action.commit job pick) = some ((sa.enqueue job).notify_one pick) := by
    simp only [threadpool.step, la, Option.isSome_none, Bool.false_eq_true, and_false,
      if_false, ec]
  have ib : Inv ((sa.enqueue job).notify_one pick) := Inv_step ia es
  have hq : ((sa.enqueue job).notify_one pick).m_task =
      sa.m_task ++ [{ fut := sa.nextFut, call := job }] := by
    rw [notify_one_m_task]; rfl
  obtain ⟨sc, rc, hf, hm⟩ := drain i _ ((sa.enqueue job).notify_one pick) ib
    (by rw [notify_one_m_run]; exact hra) (by rw [notify_one_m_lock]; exact la)
    (notify_one_loopHead _ pick pa) hq
  refine ⟨pre, _, sa, _, sc, sa.nextFut, ra, la, ec, es, rc, ?_, ?_⟩
  · exact hf { fut := sa.nextFut, call := job }
      (List.mem_append_right _ (List.mem_singleton.mpr rfl))
  · intro k o hk
    apply hm
    rw [notify_one_futures]
    show sa.futures k = some o
    rw [fa]
    exact hk

/-- A task can be accepted after shutdown began: the test of line 79 and the enqueue of
line 97 are two steps, and line 45 can fall between them. -/
theorem commit_can_land_after_stop :
    ∃ s : threadpool, (threadpool.construct 1).run lateCommitSchedule = some s ∧
      s.m_run = false ∧
      (submittedOf (afterStop s.log)).map Task.fut = [0] ∧
      s.m_task.map Task.fut = [0] :=
  ⟨_, rfl, by decide⟩

/-! ## The claims -/

/-- C1: in every pool state in which `m_run` is false, `commit` throws the runtime error
of line 80 for every callable and arguments, and the call leaves the pool exactly as it
was: no enqueue, same queue, same idle count, same thread count. -/
theorem commit_stopped_fails {α : Type} (p : threadpool) (f : α → Outcome) (args : α)
    (pick : Nat) (h : p.m_run = false) :
    p.commit f args pick = .error (.runtime_error "thread pool is stoped.") ∧
      p.step (.commit (bind f args) pick) = some p := by
  constructor
  · simp [threadpool.commit, h]
  · simp [threadpool.step, threadpool.commit, h]

theorem commit_stopped_fails_witness :
    stoppedPool.m_run = false ∧
      stoppedPool.commit func5Callable 9 0 = .error (.runtime_error "thread pool is stoped.") ∧
      stoppedPool.step (.commit (bind func5Callable 9) 0) = some stoppedPool :=
  ⟨rfl, commit_stopped_fails stoppedPool func5Callable 9 0 rfl⟩

/-- C4: a pool constructed with the requested size (any natural number, so in particular
any unsigned 16-bit value) has `threadCount() = min(size, 16)`: never more than the cap
of 16, and the requested size whenever that is at most 16; `threadpool(3)` has 3. -/
theorem construct_threadCount (size : Nat) :
    (threadpool.construct size).threadCount = ((min size 16 : Nat) : Int) ∧
      (threadpool.construct size).threadCount ≤ 16 ∧
      (size ≤ 16 → (threadpool.construct size).threadCount = (size : Int)) ∧
      (threadpool.construct 3).threadCount = 3 := by
  have h := addThread_length size threadpool.init
  have h0 : threadpool.init.m_pool.length = 0 := rfl
  rw [h0] at h
  simp only [THREADPOOL_MAX_NUM, Nat.zero_add] at h
  rw [if_pos (by omega)] at h
  unfold threadpool.threadCount threadpool.construct
  rw [h]
  refine ⟨rfl, ?_, ?_, rfl⟩
  · have : min size 16 ≤ 16 := Nat.min_le_right _ _
    exact_mod_cast this
  · intro hs
    rw [Nat.min_eq_left hs]

/-- C5: in every pool state in which `m_run` is true, `commit` returns a future for every
callable and arguments; the new queue is the old queue with exactly one task, the bound
callable paired with that future, appended at the tail; `m_run`, the idle count and the
thread count are unchanged.  When no worker holds the mutex this is one step of the
system. -/
theorem commit_running_enqueues {α : Type} (p : threadpool) (f : α → Outcome) (args : α)
    (pick : Nat) (h : p.m_run = true) :
    ∃ p1 : threadpool,
      p.commit f args pick = .ok (p.nextFut, p1) ∧
      p1.m_task = p.m_task ++ [{ fut := p.nextFut, call := bind f args }] ∧
      p1.m_task.length = p.m_task.length + 1 ∧
      p1.m_run = p.m_run ∧
      p1.idlThreadCount = p.idlThreadCount ∧
      p1.threadCount = p.threadCount ∧
      (p.m_lock = none → p.step (.commit (bind f args) pick) = some p1) := by
  refine ⟨(p.enqueue (bind f args)).notify_one pick, ?_, ?_, ?_, ?_, ?_, ?_, ?_⟩
  · unfold threadpool.commit
    rw [if_neg (by simp [h])]
    rfl
  · simp [threadpool.enqueue]
  · simp [threadpool.enqueue]
  · simp [threadpool.enqueue]
  · simp [threadpool.idlThreadCount, threadpool.enqueue]
  · simp [threadpool.threadCount, threadpool.enqueue]
  · intro hl
    simp only [threadpool.step, hl, Option.isSome_none, Bool.false_eq_true, and_false,
      if_false]
    rw [commit_ok_eq p (bind f args) pick h]

theorem commit_running_enqueues_witness :
    (threadpool.construct 3).m_run = true ∧
    ∃ p1 : threadpool,
      (threadpool.construct 3).commit func5Callable 9 0 = .ok (0, p1) ∧
      p1.m_task = [] ++ [{ fut := 0, call := bind func5Callable 9 }] ∧
      p1.m_task.length = 0 + 1 ∧
      p1.m_run = true ∧
      p1.idlThreadCount = 3 ∧
      p1.threadCount = 3 ∧
      ((threadpool.construct 3).m_lock = none →
        (threadpool.construct 3).step (.commit (bind func5Callable 9) 0) = some p1) :=
  ⟨rfl, commit_running_enqueues (threadpool.construct 3) func5Callable 9 0 rfl⟩

/-- C8: in every state reachable from construction by any schedule of commits, worker
steps, wake-ups and destructor steps, `idlThreadCount()` is at least 0 and at most
`threadCount()`. -/
theorem idle_within_thread_count (size : Nat) (acts : List Action) (s : threadpool)
    (h : (threadpool.construct size).run acts = some s) :
    0 ≤ s.idlThreadCount ∧ s.idlThreadCount ≤ s.threadCount := by
  have hi : InvIdle s := (Inv_reachable h).idle
  unfold InvIdle at hi
  have hle : (s.m_pool.countP Pc.busy : Int) ≤ (s.m_pool.length : Int) := by
    exact_mod_cast List.countP_le_length Pc.busy
  unfold threadpool.idlThreadCount threadpool.threadCount
  constructor <;> omega

theorem idle_within_thread_count_witness :
    ∃ s : threadpool, (threadpool.construct 3).run squareSchedule = some s ∧
      0 ≤ s.idlThreadCount ∧ s.idlThreadCount ≤ s.threadCount :=
  ⟨_, rfl, idle_within_thread_count 3 squareSchedule _ rfl⟩

/-- C3: in every reachable state the tasks dequeued so far are an initial segment of the
tasks accepted by `commit`, in the same order (what follows them is the queue): the
`k`-th dequeued task is the `k`-th accepted one, so a task accepted later is never
dequeued before one accepted earlier, and no task is dequeued twice (the accepted tasks
carry pairwise different futures). -/
theorem dequeue_order_is_submit_order (size : Nat) (acts : List Action) (s : threadpool)
    (h : (threadpool.construct size).run acts = some s) :
    dequeuedOf s.log <+: submittedOf s.log ∧
      submittedOf s.log = dequeuedOf s.log ++ s.m_task ∧
      (∀ k : Nat, k < (dequeuedOf s.log).length →
        (dequeuedOf s.log)[k]? = (submittedOf s.log)[k]?) ∧
      ((submittedOf s.log).map Task.fut).Nodup ∧
      ((dequeuedOf s.log).map Task.fut).Nodup := by
  have f : InvFifo s := (Inv_reachable h).fifo
  refine ⟨⟨s.m_task, f.order.symm⟩, f.order, ?_, ?_, ?_⟩
  · intro k hk
    rw [f.order, List.getElem?_append_left hk]
  · rw [f.ids]
    exact List.nodup_range _
  · exact (List.nodup_append.mp (fifo_nodup f)).1

theorem dequeue_order_is_submit_order_witness :
    ∃ s : threadpool, (threadpool.construct 3).run squareSchedule = some s ∧
      dequeuedOf s.log <+: submittedOf s.log ∧
      submittedOf s.log = dequeuedOf s.log ++ s.m_task ∧
      (∀ k : Nat, k < (dequeuedOf s.log).length →
        (dequeuedOf s.log)[k]? = (submittedOf s.log)[k]?) ∧
      ((submittedOf s.log).map Task.fut).Nodup ∧
      ((dequeuedOf s.log).map Task.fut).Nodup :=
  ⟨_, rfl, dequeue_order_is_submit_order 3 squareSchedule _ rfl⟩

/-- C10: in every reachable state, each worker has dequeued at most one task since line 45
set `m_run` to false, and therefore at most `threadCount()` tasks have been dequeued
since then, however many are queued. -/
theorem dequeues_after_stop_bounded (size : Nat) (acts : List Action) (s : threadpool)
    (h : (threadpool.construct size).run acts = some s) :
    (∀ i : Nat, (dequeuedBy i (afterStop s.log)).length ≤ 1) ∧
      ((dequeuedOf (afterStop s.log)).length : Int) ≤ s.threadCount := by
  have hi := Inv_reachable h
  cases hr : s.m_run with
  | false =>
    constructor
    · intro i
      have := hi.stop.each hr i
      omega
    · have := hi.stop.total hr
      unfold threadpool.threadCount
      exact_mod_cast (by omega : (dequeuedOf (afterStop s.log)).length ≤ s.m_pool.length)
  | true =>
    have hn : s.log.any Event.isStop = false := by rw [hi.core.stop_log, hr]; rfl
    have he : afterStop s.log = [] := afterStop_of_no_stop s.log hn
    rw [he]
    constructor
    · intro i; simp [dequeuedBy]
    · simp [dequeuedOf, threadpool.threadCount]

theorem dequeues_after_stop_bounded_witness :
    ∃ s : threadpool, (threadpool.construct 2).run lateDequeueSchedule = some s ∧
      (∀ i : Nat, (dequeuedBy i (afterStop s.log)).length ≤ 1) ∧
      ((dequeuedOf (afterStop s.log)).length : Int) ≤ s.threadCount :=
  ⟨_, rfl, dequeues_after_stop_bounded 2 lateDequeueSchedule _ rfl⟩

/-- C2, counterexample: on a pool of one worker three tasks are queued before shutdown
begins; shutdown completes (the worker is terminated and joined, the destructor has
returned); yet only the first task has been executed, and the futures of the other two
hold `broken_promise` instead of the result 81 of their callable. -/
theorem shutdown_without_drain :
    ∃ s : threadpool, (threadpool.construct 1).run drainSchedule = some s ∧
      s.owner.isDestroyed = true ∧
      s.m_pool.map Pc.phase = [Phase.Terminated] ∧
      (submittedOf s.log).map Task.fut = [0, 1, 2] ∧
      (submittedOf (afterStop s.log)).map Task.fut = [] ∧
      (executedOf s.log).map Task.fut = [0] ∧
      s.m_task.map Task.fut = [1, 2] ∧
      s.futures 0 = some (.value (.int 81)) ∧
      s.futures 1 = some Outcome.broken_promise ∧
      s.futures 2 = some Outcome.broken_promise ∧
      squareNine () = .value (.int 81) :=
  ⟨_, rfl, by decide⟩

/-- C9, counterexample: with `m_run` false and a task in the queue, the worker that has
just finished a task is waiting for work at the loop condition of line 116; its next
step terminates it, and the task stays in the queue. -/
theorem terminates_with_queued_task :
    ∃ s s1 : threadpool, (threadpool.construct 1).run abandonSchedule = some s ∧
      s.step (Action.worker 0) = some s1 ∧
      s.m_run = false ∧
      s.m_task.map Task.fut = [1] ∧
      s.m_pool.map Pc.phase = [Phase.WaitingForWork] ∧
      s1.m_pool.map Pc.phase = [Phase.Terminated] ∧
      s1.m_task.map Task.fut = [1] :=
  ⟨_, _, rfl, rfl, by decide⟩

/-- C2, amended: once shutdown has completed (the destructor has returned), every worker
is terminated and the accepted tasks split, in order, into the tasks that were dequeued
and the tasks that were still in the queue.  Every dequeued task has been executed and
its future holds the outcome of its callable.  No task that was still queued has been
executed; every such future is ready all the same, with `broken_promise`.  So every
future is ready, but the queue need not have been drained. -/
theorem shutdown_executes_dequeued (size : Nat) (acts : List Action) (s : threadpool)
    (h : (threadpool.construct size).run acts = some s) (hd : s.owner = Owner.destroyed) :
    (∀ (i : Nat) (pc : Pc), s.m_pool[i]? = some pc → pc = Pc.terminated) ∧
      submittedOf s.log = dequeuedOf s.log ++ s.m_task ∧
      (∀ t : Task, t ∈ dequeuedOf s.log →
        t ∈ executedOf s.log ∧ s.futures t.fut = some (t.call ())) ∧
      (∀ t : Task, t ∈ s.m_task →
        t ∉ executedOf s.log ∧ s.futures t.fut = some Outcome.broken_promise) ∧
      (∀ t : Task, t ∈ submittedOf s.log → (s.futures t.fut).isSome = true) := by
  have hi := Inv_reachable h
  have hall := hi.core.destroyed hd
  have hdq : ∀ t : Task, t ∈ dequeuedOf s.log →
      t ∈ executedOf s.log ∧ s.futures t.fut = some (t.call ()) := by
    intro t ht
    rcases hi.fut.dequeued_cases t ht with he | ⟨i, hh⟩
    · exact ⟨he, hi.fut.executed_ready t he⟩
    · unfold heldAt at hh
      cases hp : s.m_pool[i]? with
      | none => rw [hp] at hh; cases hh
      | some pc =>
        rw [hp] at hh
        rw [hall i pc hp] at hh
        cases hh
  have hq : ∀ t : Task, t ∈ s.m_task →
      t ∉ executedOf s.log ∧ s.futures t.fut = some Outcome.broken_promise := by
    intro t ht
    refine ⟨?_, hi.fut.queue_broken (by rw [hd]; rfl) t ht⟩
    intro he
    exact fifo_disjoint hi.fifo (hi.fut.executed_dequeued t he) ht rfl
  refine ⟨hall, hi.fifo.order, hdq, hq, ?_⟩
  intro t ht
  rw [hi.fifo.order, List.mem_append] at ht
  rcases ht with ht | ht
  · rw [(hdq t ht).2]; rfl
  · rw [(hq t ht).2]; rfl

theorem shutdown_executes_dequeued_witness :
    ∃ s : threadpool, (threadpool.construct 1).run drainSchedule = some s ∧
      s.owner = Owner.destroyed ∧
      (∀ (i : Nat) (pc : Pc), s.m_pool[i]? = some pc → pc = Pc.terminated) ∧
      submittedOf s.log = dequeuedOf s.log ++ s.m_task ∧
      (∀ t : Task, t ∈ dequeuedOf s.log →
        t ∈ executedOf s.log ∧ s.futures t.fut = some (t.call ())) ∧
      (∀ t : Task, t ∈ s.m_task →
        t ∉ executedOf s.log ∧ s.futures t.fut = some Outcome.broken_promise) ∧
      (∀ t : Task, t ∈ submittedOf s.log → (s.futures t.fut).isSome = true) :=
  ⟨_, rfl, rfl, shutdown_executes_dequeued 1 drainSchedule _ rfl rfl⟩

/-- C9, amended: a worker moves to Terminated only by a step of its own taken in a state
in which `m_run` is false, either at the loop condition of line 116, whatever the queue
holds, or at the check after `wait` (line 125) with the queue empty.  On every wake
with a non-empty queue (the worker holds the mutex and evaluates the predicate of
`wait`) its next two steps dequeue the head task and move it to Executing, and in a
reachable state no step of anybody else changes the queue meanwhile. -/
theorem worker_terminates_only_when_stopped :
    (∀ (s s1 : threadpool) (a : Action) (i : Nat), s.step a = some s1 →
      s.m_pool[i]?.map Pc.phase ≠ some Phase.Terminated →
      s1.m_pool[i]?.map Pc.phase = some Phase.Terminated →
      a = Action.worker i ∧ s.m_run = false ∧
        (s.m_pool[i]? = some Pc.loopHead ∨
          (s.m_pool[i]? = some Pc.check ∧ s.m_task = []))) ∧
    (∀ (s : threadpool) (i : Nat) (t : Task) (rest : List Task),
      s.m_pool[i]? = some Pc.waitPred → s.m_task = t :: rest →
      ∃ s1 s2 : threadpool,
        s.step (Action.worker i) = some s1 ∧ s1.m_pool[i]? = some Pc.check ∧
        s1.m_task = t :: rest ∧
        s1.step (Action.worker i) = some s2 ∧ s2.m_pool[i]? = some (Pc.decr t) ∧
        s2.m_pool[i]?.map Pc.phase = some Phase.Executing ∧ s2.m_task = rest) ∧
    (∀ (size : Nat) (acts : List Action) (s s1 : threadpool) (i : Nat) (pc : Pc)
      (a : Action), (threadpool.construct size).run acts = some s →
      s.m_pool[i]? = some pc → pc.locked = true → s.step a = some s1 →
      s1.m_task = s.m_task ∨ a = Action.worker i) := by
  refine ⟨?_, ?_, ?_⟩
  · intro s s1 a i h h0 h1
    have hw : ∃ j, a = Action.worker j ∧ j = i := by
      by_contra hc
      have := step_phase h i (fun j e1 e2 => hc ⟨j, e1, e2⟩)
      rw [this] at h1
      exact h0 h1
    obtain ⟨j, rfl, rfl⟩ := hw
    refine ⟨rfl, ?_⟩
    obtain ⟨a, b, hp, hs, hb⟩ := workerStep_pool h
    rw [hs, getElem?_set_of hp, if_pos rfl] at h1
    have : b = Pc.terminated := phase_terminated (by simpa using h1)
    obtain ⟨hr, hab⟩ := hb this
    refine ⟨hr, ?_⟩
    rcases hab with e | ⟨e, hq⟩
    · exact Or.inl (e ▸ hp)
    · exact Or.inr ⟨e ▸ hp, hq⟩
  · intro s i t rest hp hq
    have hp1 : (s.setPc i Pc.check).m_pool[i]? = some Pc.check := setPc_getElem? hp _
    have hq1 : (s.setPc i Pc.check).m_task = t :: rest := hq
    refine ⟨_, _, step_waitPred hp hq, hp1, hq1, step_check hp1 hq1, ?_, ?_, rfl⟩
    · exact setPc_getElem? hp1 _
    · have : ((s.setPc i Pc.check).setPc i (Pc.decr t)).m_pool[i]? = some (Pc.decr t) :=
        setPc_getElem? hp1 _
      exact congrArg (Option.map Pc.phase) this
  · intro size acts s s1 i pc a hrun hp hl h
    have c := (Inv_reachable hrun).core
    have hlock := c.lock_of i pc hp hl
    cases a with
    | commit job pick =>
      simp only [threadpool.step] at h
      split at h
      · cases h
      · rename_i hc
        have hr2 : s.m_run = false := by
          cases hr : s.m_run with
          | false => rfl
          | true => exact absurd ⟨hr, by rw [hlock]; rfl⟩ hc
        simp only [threadpool.commit, hr2, if_true] at h
        cases h
        exact Or.inl rfl
    | commitTest job =>
      simp only [threadpool.step] at h
      split at h <;> cases h <;> exact Or.inl rfl
    | commitRest k pick =>
      simp only [threadpool.step, hlock] at h
      split at h <;> cases h
    | worker j =>
      rcases workerStep_task h with e | hc
      · exact Or.inl e
      · have := c.lock_of j _ hc rfl
        rw [hlock] at this
        cases this
        exact Or.inr rfl
    | spurious j =>
      simp only [threadpool.step] at h
      split at h <;> cases h
      exact Or.inl rfl
    | stop =>
      simp only [threadpool.step] at h
      split at h <;> cases h
      exact Or.inl rfl
    | notifyAll =>
      simp only [threadpool.step] at h
      split at h <;> cases h
      exact Or.inl rfl
    | join =>
      simp only [threadpool.step] at h
      split at h
      · split at h <;> cases h <;> exact Or.inl rfl
      · cases h

theorem worker_terminates_only_when_stopped_witness :
    (∃ s s1 : threadpool, (threadpool.construct 1).run abandonSchedule = some s ∧
      s.step (Action.worker 0) = some s1 ∧
      s.m_pool[0]?.map Pc.phase ≠ some Phase.Terminated ∧
      s1.m_pool[0]?.map Pc.phase = some Phase.Terminated ∧
      Action.worker 0 = Action.worker 0 ∧ s.m_run = false ∧
        (s.m_pool[0]? = some Pc.loopHead ∨
          (s.m_pool[0]? = some Pc.check ∧ s.m_task = []))) ∧
    (∃ s : threadpool, (threadpool.construct 1).run wakeSchedule = some s ∧
      s.m_pool[0]? = some Pc.waitPred ∧
      s.m_task = { fut := 0, call := squareNine } :: [] ∧
      ∃ s1 s2 : threadpool,
        s.step (Action.worker 0) = some s1 ∧ s1.m_pool[0]? = some Pc.check ∧
        s1.m_task = { fut := 0, call := squareNine } :: [] ∧
        s1.step (Action.worker 0) = some s2 ∧
        s2.m_pool[0]? = some (Pc.decr { fut := 0, call := squareNine }) ∧
        s2.m_pool[0]?.map Pc.phase = some Phase.Executing ∧ s2.m_task = []) ∧
    (∃ s s1 : threadpool, (threadpool.construct 1).run wakeSchedule = some s ∧
      s.m_pool[0]? = some Pc.waitPred ∧ Pc.waitPred.locked = true ∧
      s.step (Action.worker 0) = some s1 ∧
      (s1.m_task = s.m_task ∨ Action.worker 0 = Action.worker 0)) :=
  ⟨⟨_, _, rfl, rfl, by decide, by decide,
      worker_terminates_only_when_stopped.1 _ _ _ 0 rfl (by decide) (by decide)⟩,
    ⟨_, rfl, rfl, rfl, worker_terminates_only_when_stopped.2.1 _ 0 _ _ rfl rfl⟩,
    ⟨_, _, rfl, rfl, rfl, rfl,
      worker_terminates_only_when_stopped.2.2 1 wakeSchedule _ _ 0 _ _ rfl rfl rfl rfl⟩⟩

/-- C6: whenever `commit` accepts a callable `f` with arguments `args` and returns the
future `h`, then in every later state in which a worker has returned from invoking the
task that carries `h`, the shared state of `h` holds exactly `f(args)`.  In particular
`commit(func5, 9)` on a pool of three workers resolves to 81 once worker 0 has run one
round of its loop. -/
theorem future_holds_result :
    (∀ (α : Type) (size : Nat) (acts1 acts2 : List Action) (s1 s2 s3 : threadpool)
      (f : α → Outcome) (args : α) (pick h i : Nat) (t : Task),
      (threadpool.construct size).run acts1 = some s1 →
      s1.commit f args pick = .ok (h, s2) →
      s2.run acts2 = some s3 →
      Event.executed i t ∈ s3.log → t.fut = h →
      s3.futures h = some (f args)) ∧
    (∃ s : threadpool, (threadpool.construct 3).run squareSchedule = some s ∧
      s.futures 0 = some (.value (.int 81))) := by
  refine ⟨?_, _, rfl, rfl⟩
  intro α size acts1 acts2 s1 s2 s3 f args pick h i t h1 hc h2 he hf
  have i1 : Inv s1 := Inv_reachable h1
  have i2 : Inv s2 := Inv_commit i1 hc
  obtain ⟨hr, rfl, rfl⟩ := commit_ok_inv hc
  have c2 : Carries s1.nextFut (f args) ((s1.enqueue (bind f args)).notify_one pick) := by
    constructor
    · simp [threadpool.enqueue]
    · intro u hu hfu
      simp only [notify_one_log, threadpool.enqueue, submittedOf_append, submittedOf_submitted,
        List.mem_append, List.mem_singleton] at hu
      rcases hu with hu | hu
      · have := fifo_lt i1.fifo hu
        omega
      · subst hu
        rfl
  have i3 : Inv s3 := Inv_run i2 h2
  have c3 : Carries s1.nextFut (f args) s3 :=
    run_invariant (Carries s1.nextFut (f args)) (Carries_trans _ _) acts2 _ _ c2 h2
  have hex : t ∈ executedOf s3.log := mem_executedOf he
  have hsub : t ∈ submittedOf s3.log := by
    rw [i3.fifo.order]
    exact List.mem_append_left _ (i3.fut.executed_dequeued t hex)
  rw [← hf, i3.fut.executed_ready t hex, c3.2 t hsub hf]

theorem future_holds_result_witness :
    ∃ s1 s2 s3 : threadpool,
      (threadpool.construct 3).run [] = some s1 ∧
      s1.commit func5Callable 9 0 = .ok (0, s2) ∧
      s2.run (steps 0 7) = some s3 ∧
      Event.executed 0 { fut := 0, call := bind func5Callable 9 } ∈ s3.log ∧
      s3.futures 0 = some (func5Callable 9) :=
  ⟨_, _, _, rfl, rfl, rfl, List.Mem.tail _ (List.Mem.tail _ (List.Mem.head _)),
    future_holds_result.1 Int 3 [] (steps 0 7) _ _ _ func5Callable 9 0 0 0
      { fut := 0, call := bind func5Callable 9 } rfl rfl rfl
      (List.Mem.tail _ (List.Mem.tail _ (List.Mem.head _))) rfl⟩

/-- C7: when a worker of a reachable pool invokes a task whose callable throws, that step
stores the exception in the shared state of the task's future and leaves the worker
inside the loop (Executing); its next step brings it back to the loop condition
(WaitingForWork), not to Terminated.  If the pool is still running, the worker goes on
into `wait`, every further `commit` is accepted, and there is a schedule after which
the new future is ready with the outcome of its callable while the failed future still
holds the exception. -/
theorem failing_task_is_contained (size : Nat) (acts : List Action) (s : threadpool)
    (i : Nat) (t : Task) (what : String)
    (h : (threadpool.construct size).run acts = some s)
    (hp : s.m_pool[i]? = some (Pc.exec t)) (hf : t.call () = Outcome.raised what) :
    ∃ s1 s2 : threadpool,
      s.step (Action.worker i) = some s1 ∧
      s1.futures t.fut = some (Outcome.raised what) ∧
      s1.m_pool[i]?.map Pc.phase = some Phase.Executing ∧
      s1.step (Action.worker i) = some s2 ∧
      s2.m_pool[i]? = some Pc.loopHead ∧
      s2.m_pool[i]?.map Pc.phase = some Phase.WaitingForWork ∧
      s2.futures t.fut = some (Outcome.raised what) ∧
      (s.m_run = true →
        (∃ s3 : threadpool, s2.step (Action.worker i) = some s3 ∧
          s3.m_pool[i]? = some Pc.acquire) ∧
        ∀ (job : Unit → Outcome) (pick : Nat),
          ∃ (pre post : List Action) (sa sb sc : threadpool) (hnd : Nat),
            s2.run pre = some sa ∧ sa.m_lock = none ∧
            sa.commit job () pick = .ok (hnd, sb) ∧
            sa.step (Action.commit job pick) = some sb ∧
            sb.run post = some sc ∧
            sc.futures hnd = some (job ()) ∧
            sc.futures t.fut = some (Outcome.raised what)) := by
  have hi : Inv s := Inv_reachable h
  have hn : s.futures t.fut = none := hi.fut.held_pending i t (heldAt_of hp)
  have e1 := step_exec hp hn
  generalize h1 : ({ s.setPc i Pc.incr with
    futures := fun k => if k = t.fut then some (t.call ()) else s.futures k,
    log := s.log ++ [Event.executed i t] } : threadpool) = s1 at e1
  have p1 : s1.m_pool[i]? = some Pc.incr := by
    rw [← h1]; exact setPc_getElem? hp _
  have f1 : s1.futures t.fut = some (Outcome.raised what) := by
    rw [← h1, ← hf]; simp
  have e2 := step_incr p1
  generalize h2 : ({ s1.setPc i Pc.loopHead with
    m_idl_thread_num := s1.m_idl_thread_num + 1 } : threadpool) = s2 at e2
  have p2 : s2.m_pool[i]? = some Pc.loopHead := by
    rw [← h2]; exact setPc_getElem? p1 _
  have f2 : s2.futures t.fut = some (Outcome.raised what) := by
    rw [← h2]; exact f1
  have i2 : Inv s2 := Inv_step (Inv_step hi e1) e2
  refine ⟨s1, s2, e1, f1, ?_, e2, p2, ?_, f2, ?_⟩
  · rw [p1]; rfl
  · rw [p2]; rfl
  · intro hr
    have r2 : s2.m_run = true := by rw [← h2, ← h1]; exact hr
    refine ⟨⟨_, step_loopHead p2 r2, setPc_getElem? p2 _⟩, ?_⟩
    intro job pick
    obtain ⟨pre, post, sa, sb, sc, hnd, ra, la, ec, es, rc, hfc, hm⟩ :=
      commit_then_drain i2 r2 p2 job pick
    exact ⟨pre, post, sa, sb, sc, hnd, ra, la, ec, es, rc, hfc, hm _ _ f2⟩

theorem failing_task_is_contained_witness :
    ∃ s : threadpool, (threadpool.construct 1).run failSchedule = some s ∧
      s.m_pool[0]? = some (Pc.exec { fut := 0, call := failing }) ∧
      failing () = Outcome.raised "task failed" ∧
      s.m_run = true ∧
      ∃ s1 s2 : threadpool,
        s.step (Action.worker 0) = some s1 ∧
        s1.futures 0 = some (Outcome.raised "task failed") ∧
        s1.m_pool[0]?.map Pc.phase = some Phase.Executing ∧
        s1.step (Action.worker 0) = some s2 ∧
        s2.m_pool[0]? = some Pc.loopHead ∧
        s2.m_pool[0]?.map Pc.phase = some Phase.WaitingForWork ∧
        s2.futures 0 = some (Outcome.raised "task failed") ∧
        (s.m_run = true →
          (∃ s3 : threadpool, s2.step (Action.worker 0) = some s3 ∧
            s3.m_pool[0]? = some Pc.acquire) ∧
          ∀ (job : Unit → Outcome) (pick : Nat),
            ∃ (pre post : List Action) (sa sb sc : threadpool) (hnd : Nat),
              s2.run pre = some sa ∧ sa.m_lock = none ∧
              sa.commit job () pick = .ok (hnd, sb) ∧
              sa.step (Action.commit job pick) = some sb ∧
              sb.run post = some sc ∧
              sc.futures hnd = some (job ()) ∧
              sc.futures 0 = some (Outcome.raised "task failed")) :=
  ⟨_, rfl, rfl, rfl, rfl,
    failing_task_is_contained 1 failSchedule _ 0 { fut := 0, call := failing }
      "task failed" rfl rfl rfl⟩

end TP
